import Mathlib

/-!
# A verification model of the graphile-crystal plan compiler and executor

This file gives a shallow embedding, in Lean, of the core algorithms of
`packages/graphile-crystal/src/aether.ts` — the plan-graph compiler
("Aether") and its batched executor — together with theorems checking the
natural-language specification of that module.

Modelling conventions:
* A TypeScript `ExecutablePlan` object becomes a first-order `ExecutablePlan`
  structure.  Methods that are dynamically dispatched on the concrete plan
  class (`deduplicate`, `optimize`, `execute`) are modelled as explicit
  function parameters, which keeps the plan type decidable.
* The plan table `this.plans` (a record from string ids `_1`, `_2`, … to
  plans, where slots can be nulled or can alias a replacement plan) becomes
  `PlanTable := List (Option ExecutablePlan)` indexed by position.
* Thrown `Error`s become `Except String` results.
* Recursive graph walks are written with explicit fuel; theorems supply the
  fuel-adequacy facts they need.
-/

namespace Crystal

/-- Plan ids: the source uses strings `_1`, `_2`, …; we use the numeric part. -/
abbrev PlanId := Nat

/-- The fields of an `ExecutablePlan` that the compiler algorithms inspect.
`pid` is the plan's own id (`plan.id` in the source, assigned by `_addPlan`);
`kind` stands for the JS constructor (two plans are of the same class iff
their `kind`s are equal); `directPlanRefs` records, for `validatePlans`, the
ids of plans the object references directly through an own property;
`isTrackedObjectPlan` corresponds to `plan instanceof __TrackedObjectPlan`. -/
structure ExecutablePlan where
  pid : PlanId
  kind : Nat
  parentPathIdentity : String
  dependencies : List PlanId
  hasSideEffects : Bool
  isTrackedObjectPlan : Bool := false
  directPlanRefs : List Nat := []
deriving DecidableEq, Repr

/-- The plan table `this.plans`.  Position `i` models the entry for id `_i`;
`none` models a slot that was nulled during tree-shaking. -/
abbrev PlanTable := List (Option ExecutablePlan)

/-- `this.plans[id]` — `none` if the slot is out of range or nulled. -/
def planAt (t : PlanTable) (i : PlanId) : Option ExecutablePlan :=
  (t.get? i).bind id

/-- The compiler phase state machine (`type AetherPhase` in the source). -/
inductive AetherPhase
  | init
  | plan
  | validate
  | deduplicate
  | optimize
  | finalize
  | ready
deriving DecidableEq, Repr

/-- The test `["plan", "validate", "deduplicate", "optimize"].includes(this.phase)`
guarding plan creation in `_addPlan`. -/
def phaseAllowsPlanCreation : AetherPhase → Bool
  | .plan => true
  | .validate => true
  | .deduplicate => true
  | .optimize => true
  | _ => false

/-- The slice of Aether state that `_addPlan` touches: the current phase, the
plan table and `this.planCount`. -/
structure AetherState where
  phase : AetherPhase
  plans : PlanTable
  planCount : Nat
deriving Repr

namespace Aether

/-- `Aether._addPlan`: adds a plan to the known plans and returns the id to
use as the plan id; creating a plan outside the phases
plan/validate/deduplicate/optimize throws.  (The source mints the string id
`_${++planCount}`; the model numbers table slots from `0`, so the fresh id
is the new slot's index.) -/
def _addPlan (s : AetherState) (p : ExecutablePlan) : Except String (AetherState × PlanId) :=
  if phaseAllowsPlanCreation s.phase then
    let planId := s.planCount
    .ok ({ s with plans := s.plans ++ [some p], planCount := planId + 1 }, planId)
  else
    .error "Creating a plan during the current phase is forbidden."

end Aether

/-- `arraysMatch(planA.dependencies, planB.dependencies, (a, b) => plans[a] === plans[b])`
as used by `isPeer`. -/
def depsMatch (t : PlanTable) : List PlanId → List PlanId → Bool
  | [], [] => true
  | a :: as_, b :: bs => decide (planAt t a = planAt t b) && depsMatch t as_ bs
  | _, _ => false

namespace Aether

/-- `Aether.isPeer`: plans can merge only if they are of the same class, sit
at the same `parentPathIdentity`, and have pairwise identical resolved
dependencies. -/
def isPeer (t : PlanTable) (planA planB : ExecutablePlan) : Bool :=
  planA.kind == planB.kind &&
  planA.parentPathIdentity == planB.parentPathIdentity &&
  depsMatch t planA.dependencies planB.dependencies

end Aether

/-- One step of the peer scan in `deduplicatePlan`: slot `i` contributes its
plan as a peer when the slot is live, un-aliased (`potentialPeer.id === id`),
side-effect free, not seen yet, and `isPeer` holds.  The accumulator carries
the `seenIds` set and the peers collected so far (in slot order). -/
def peersStep (t : PlanTable) (plan : ExecutablePlan)
    (acc : List PlanId × List ExecutablePlan) (i : PlanId) :
    List PlanId × List ExecutablePlan :=
  match planAt t i with
  | none => acc
  | some q =>
    if q.pid = i ∧ q.hasSideEffects = false ∧ i ∉ acc.1 ∧ Aether.isPeer t plan q then
      (i :: acc.1, acc.2 ++ [q])
    else acc

/-- The peer list computed by `Aether.deduplicatePlan` before it calls
`plan.deduplicate(peers)` (the `Object.entries(this.plans).filter(...)` scan,
seeded with `seenIds = {plan.id}`). -/
def peersFor (t : PlanTable) (plan : ExecutablePlan) : List ExecutablePlan :=
  ((List.range t.length).foldl (peersStep t plan) ([plan.pid], [])).2

namespace Aether

/-- `Aether.deduplicatePlan`.  `streamByPid` models
`!!this.planOptionsByPlan.get(plan)?.stream`; `dedupF` models the dynamic
call `plan.deduplicate(peers)`.  The returned flag records whether the
plan's `deduplicate` method was invoked at all (the early returns for
side-effect plans, streamed plans and plans with no peers never call it). -/
def deduplicatePlan (t : PlanTable) (streamByPid : PlanId → Bool)
    (dedupF : ExecutablePlan → List ExecutablePlan → ExecutablePlan)
    (plan : ExecutablePlan) : Except String (ExecutablePlan × Bool) :=
  if plan.hasSideEffects then
    -- Never deduplicate plans with side effects.
    .ok (plan, false)
  else if streamByPid plan.pid then
    -- Never deduplicate streaming plans.
    .ok (plan, false)
  else
    let peers := peersFor t plan
    if peers.isEmpty then
      .ok (plan, false)
    else
      let replacementPlan := dedupF plan peers
      if replacementPlan ≠ plan ∧ replacementPlan ∉ peers then
        .error "deduplicatePlan error: expected to replace plan with one of its identical peers"
      else
        .ok (replacementPlan, true)

end Aether

/-!
### Side-effect sequencing (`executeBatchForPlanResultses`)

The source builds, for the side-effect plans of a field,
```
let chain = Promise.resolve();
for (let i = 0; i < sideEffectCount; i++) {
  chain = chain.then(() => this.executePlan(sideEffectPlans[i], ...));
}
return chain.then(() => this.executeBatchInner(...));
```
We model the timing of this promise chain directly: a `.then` callback
starts exactly when the promise before it resolves.  Each side-effect plan
is abstracted by its latency (how long its `executePlan` takes); the model
computes, for an arbitrary list of latencies, the (start, completion) time
of every side-effect plan in declaration order, together with the time at
which `executeBatchInner` (the field's main plan / item-plan layers) begins.
-/

/-- Timing of the sequential side-effect promise chain starting at time
`t0`: returns the (start, completion) pairs in declaration order, and the
time at which the continuation attached after the chain begins. -/
def sideEffectChain : List Nat → Nat → List (Nat × Nat) × Nat
  | [], t0 => ([], t0)
  | l :: ls, t0 =>
    let c := t0 + l
    let (rest, e) := sideEffectChain ls c
    ((t0, c) :: rest, e)

/-- The timing skeleton of `executeBatchForPlanResultses`: all side effects
run through `sideEffectChain`, and `executeBatchInner` starts when the chain
resolves (immediately at `t0` when there are no side-effect plans). -/
def executeBatchSchedule (sideEffectLatencies : List Nat) (t0 : Nat) :
    List (Nat × Nat) × Nat :=
  sideEffectChain sideEffectLatencies t0

/-!
### Plan validation (`validatePlans`)

`validatePlans` walks the plan ids from `offset`, and for every plan that is
not a `__TrackedObjectPlan` scans the plan's own properties; every property
whose value is an `ExecutablePlan` pushes an error.  If any errors were
collected the first one is thrown.  In the model, the properties holding
plans are abstracted by the `directPlanRefs` field.
-/

/-- The error batch collected by `Aether.validatePlans` over the ids from
`offset`: one error per illegal direct plan-to-plan property reference,
except that `__TrackedObjectPlan`s are allowed to hold references
(`referencingPlanIsAllowed`). -/
def planValidationErrors (t : PlanTable) (offset : Nat) : List String :=
  (((List.range t.length).drop offset).map (fun i =>
    match planAt t i with
    | none => []
    | some plan =>
      if plan.isTrackedObjectPlan then []
      else plan.directPlanRefs.map
        (fun _ => "ERROR: ExecutablePlan has illegal direct reference to a plan"))).flatten

namespace Aether

/-- `Aether.validatePlans` (the cross-reference scan): aggregates the error
batch and throws the first error when the batch is non-empty. -/
def validatePlans (t : PlanTable) (offset : Nat) : Except String Unit :=
  match planValidationErrors t offset with
  | [] => .ok ()
  | e :: _ => .error e

end Aether

/-!
### Per-parent error propagation (`executePlanPending`)

`executePlanPending` receives, for each of the plan's dependencies, the list
of that dependency's values for the `n` pending parents.  It then walks the
parents from index `n-1` down to `0`; a parent whose first erroring
dependency value is a `CrystalError` short-circuits: the error becomes that
parent's result, is written into the parent's bucket, and the parent's
column is spliced out of every dependency list.  The remaining parents are
passed to the plan's `execute`; each execute result that is a rejected
promise is caught and wrapped in a `CrystalError`, and every result is
written into its parent's bucket.
-/

/-- Values threaded through plan execution: a plain value, a
`CrystalError`-wrapped failure travelling as a value, or JS `undefined`. -/
inductive CVal (E V : Type) where
  | ok (v : V)
  | cerr (e : E)
  | undef
deriving DecidableEq, Repr

/-- The scan `for (j) { if (dependencyValuesList[j][i] instanceof
CrystalError) { error = it; break } }`: the first erroring dependency value
of parent column `i`. -/
def firstDepErrorAt {E V : Type} (deps : List (List (CVal E V))) (i : Nat) : Option E :=
  match deps with
  | [] => none
  | col :: rest =>
    match col.getD i CVal.undef with
    | .cerr e => some e
    | _ => firstDepErrorAt rest i

/-- The descending loop of `executePlanPending` over parent columns
`n-1, …, 0`.  Returns the dependency lists with erroring columns spliced out
(`dependencyValuesList[j].splice(i, 1)`), the real (non-erroring) parent
indexes in the descending push order used by the source, and the error
writes `(i, error)` performed along the way. -/
def pendLoop {E V : Type} (deps : List (List (CVal E V))) :
    Nat → List (List (CVal E V)) × List Nat × List (Nat × E)
  | 0 => (deps, [], [])
  | n + 1 =>
    match firstDepErrorAt deps n with
    | some e =>
      let deps' := (deps.map (fun col => col.eraseIdx n))
      let r := pendLoop deps' n
      (r.1, r.2.1, (n, e) :: r.2.2)
    | none =>
      let r := pendLoop deps n
      (r.1, n :: r.2.1, r.2.2)

/-- A resolved execute result, or a rejected one caught and wrapped into a
`CrystalError` (`result[i] = new CrystalError(e)`). -/
def cvalOfExec {E V : Type} : Except E V → CVal E V
  | .ok v => .ok v
  | .error e => .cerr e

/-- Applying a list of indexed writes to a result array (later writes win,
as for JS assignments `result[i] = v`). -/
def applyWrites {α : Type} (ws : List (Nat × α)) (l : List α) : List α :=
  ws.foldl (fun acc w => acc.set w.1 w.2) l

/-- The value taken from position `p` of `execute`'s return list
(`pendingResults[i]`, possibly awaited; a rejection is caught and wrapped). -/
def outValOf {E V : Type} (out : List (Except E V)) (p : Nat) : CVal E V :=
  match out[p]? with
  | some res => cvalOfExec res
  | none => CVal.undef

/-- The bucket writes for the real (non-erroring) parents: position `p` of
the execute output is stored under the parent index `realIdxs[p]`. -/
def realWritesOf {E V : Type} (out : List (Except E V)) (realIdxs : List Nat) :
    List (Nat × CVal E V) :=
  realIdxs.enum.map (fun pi => (pi.2, outValOf out pi.1))

/-- The bucket writes performed for erroring parents while splicing. -/
def errWritesOf {E V : Type} (errs : List (Nat × E)) : List (Nat × CVal E V) :=
  errs.map (fun w => (w.1, CVal.cerr w.2))

/-- The model of `executePlanPending` for a plan with at least one
dependency: `n` is the number of pending parents, `deps` the per-dependency
value lists (each of length `n`), and `execF` the plan's `execute`.
Returns the per-parent results, the bucket writes
`planResults.set(commonAncestorPathIdentity, plan.id, value)` in the order
they are performed, and the argument passed to `execute` — `none` when all
parents short-circuited and execution was skipped. -/
def executePlanPendingModel {E V : Type} (n : Nat) (deps : List (List (CVal E V)))
    (execF : List (List (CVal E V)) → List (Except E V)) :
    List (CVal E V) × List (Nat × CVal E V) × Option (List (List (CVal E V))) :=
  let r := pendLoop deps n
  let realIdxs := r.2.1.reverse
  let errWrites := errWritesOf (V := V) r.2.2
  if realIdxs.isEmpty then
    (applyWrites errWrites (List.replicate n CVal.undef), errWrites, none)
  else
    let realWrites := realWritesOf (execF r.1) realIdxs
    (applyWrites (errWrites ++ realWrites) (List.replicate n CVal.undef),
      errWrites ++ realWrites, some r.1)

/-- Specification-side view of the splice loop: the parent columns that do
not short-circuit, in ascending order. -/
def healthyIdxs {E V : Type} (deps : List (List (CVal E V))) (n : Nat) : List Nat :=
  (List.range n).filter (fun i => (firstDepErrorAt deps i).isNone)

/-- Specification-side view of column selection: keep only the listed
positions of a list, in order. -/
def selectIdxs {α : Type} (col : List α) (idxs : List Nat) : List α :=
  idxs.filterMap (fun i => col[i]?)

/-!
### At-most-once per (plan, bucket) execution (`executePlanOld`)

For a fixed plan, `executePlanOld` walks the batch's `planResultses` once.
A `null` or `CrystalError` entry is passed through as that parent's result.
A live entry is classified against the bucket it holds at the plan's
`commonAncestorPathIdentity`:
* if the bucket already stores a value for the plan id
  (`planResults.has(...)`), that cached value is the result;
* otherwise, if the per-operation in-flight map
  (`crystalContext.inProgressPlanResolutions[plan.id]`) already holds a
  deferred for the bucket, the caller is joined onto it
  (`inProgressDeferreds`) and observes the value that deferred resolves to;
* otherwise a fresh deferred is registered for the bucket
  (`deferredsByBucket.set(bucket, deferred)`) and the bucket is queued for
  execution (`pendingPlanResultses`); `executePlanPending` later computes
  one value per queued bucket and resolves the deferred with it.

The model fixes the plan and abstracts a bucket's pending computation by
`execV : B → V` — the value `executePlanPending` computes and the deferred
resolves with for that bucket.  `cache` is the bucket store restricted to
this plan id; `inflight` maps each in-flight bucket to the value its
deferred will resolve with.
-/

/-- A parent entry of the `planResultses` batch, for a fixed plan: `dead v`
models a `null` or `CrystalError` entry (passed through as the result `v`);
`live b` models a live `PlanResults` whose bucket at the plan's
common-ancestor path identity is `b`. -/
inductive PRInput (B V : Type) where
  | dead (v : V)
  | live (b : B)
deriving DecidableEq, Repr

/-- Association-list lookup (the `Map.get` of the bucket store and of the
in-flight map). -/
def alookup {B V : Type} [DecidableEq B] : List (B × V) → B → Option V
  | [], _ => none
  | e :: rest, b => if b = e.1 then some e.2 else alookup rest b

/-- The per-call accumulator of `executePlanOld`'s classification loop:
results in batch order, the buckets queued for execution in queue order
(`pendingPlanResultses`), and the current in-flight map. -/
structure OldAcc (B V : Type) where
  results : List V
  pending : List B
  inflight : List (B × V)
deriving Repr

/-- One iteration of `executePlanOld`'s loop over the batch. -/
def executePlanOldStep {B V : Type} [DecidableEq B] (cache : List (B × V))
    (execV : B → V) (acc : OldAcc B V) (p : PRInput B V) : OldAcc B V :=
  match p with
  | .dead v => { acc with results := acc.results ++ [v] }
  | .live b =>
    match alookup cache b with
    | some v =>
      -- `planResults.has(commonAncestorPathIdentity, plan.id)`: reuse.
      { acc with results := acc.results ++ [v] }
    | none =>
      match alookup acc.inflight b with
      | some w =>
        -- `deferredsByBucket.has(bucket)`: join the in-flight computation.
        { acc with results := acc.results ++ [w] }
      | none =>
        -- Register a deferred and queue the bucket for execution.
        { results := acc.results ++ [execV b],
          pending := acc.pending ++ [b],
          inflight := (b, execV b) :: acc.inflight }

/-- The classification loop of `executePlanOld` over a whole batch. -/
def executePlanOldRun {B V : Type} [DecidableEq B] (cache inflight : List (B × V))
    (execV : B → V) (parents : List (PRInput B V)) : OldAcc B V :=
  parents.foldl (executePlanOldStep cache execV) ⟨[], [], inflight⟩

/-- The value a parent ends up observing, as a function of the initial
bucket store and in-flight map only. -/
def oldResultOf {B V : Type} [DecidableEq B] (cache inflight : List (B × V))
    (execV : B → V) : PRInput B V → V
  | .dead v => v
  | .live b =>
    match alookup cache b with
    | some v => v
    | none =>
      match alookup inflight b with
      | some w => w
      | none => execV b

/-!
### Common-ancestor path identity (`assignCommonAncestorPathIdentity`)

For every plan, the finalize phase collects the tree nodes at which the
plan is first used (`walkTreeFirstPlanUsages`), turns each into a
root-to-node path with `treeNodePath` (walking ancestors only while they
extend the plan's `parentPathIdentity`, then truncating at the first
list/item boundary — an adjacent pair of nodes sharing `fieldPathIdentity`
but differing in `pathIdentity`), and then runs an imperative `matchLoop`
that finds the largest index at which all paths hold the same node.  We
model the per-plan computation, taking the collected tree nodes as input,
and compare the loop against an independent longest-common-stem
formulation written from the specification's description.
-/

/-- A compilation tree node (`TreeNode` in the source): its path identity,
the field path identity it belongs to, and its parent (the source's
`parent: null` root becomes the `root` constructor).  In the model, object
identity is structural equality. -/
inductive TreeNode where
  | root (pathIdentity : String) (fieldPathIdentity : String)
  | child (pathIdentity : String) (fieldPathIdentity : String)
      (parent : TreeNode)
deriving DecidableEq, Repr

def TreeNode.pathIdentity : TreeNode → String
  | .root p _ => p
  | .child p _ _ => p

def TreeNode.fieldPathIdentity : TreeNode → String
  | .root _ f => f
  | .child _ f _ => f

def TreeNode.parent : TreeNode → Option TreeNode
  | .root _ _ => none
  | .child _ _ par => some par

/-- `pathIdentity.startsWith(startPathIdentity)`, computed on the character
lists so that concrete instances reduce. -/
def strStartsWith (s pre : String) : Bool :=
  pre.data.isPrefixOf s.data

/-- The ancestor walk of `treeNodePath`: `path = [treeNode]` followed by
`while ((n = n.parent) && n.pathIdentity.startsWith(start)) path.unshift(n)`
— the node and those of its ancestors that extend `start`, shallowest
first. -/
def ancestorChain (start : String) : TreeNode → List TreeNode
  | .root p f => [.root p f]
  | .child p f par =>
    if strStartsWith par.pathIdentity start then
      ancestorChain start par ++ [.child p f par]
    else [.child p f par]

/-- The list-boundary truncation of `treeNodePath`: cut the path just
before the first node that shares its predecessor's `fieldPathIdentity`
while having a different `pathIdentity` (`listChangeIndex` and the
`splice`). -/
def truncAtListChange : List TreeNode → List TreeNode
  | [] => []
  | [t] => [t]
  | a :: b :: rest =>
    if a.fieldPathIdentity = b.fieldPathIdentity ∧ a.pathIdentity ≠ b.pathIdentity
    then [a]
    else a :: truncAtListChange (b :: rest)

/-- `treeNodePath(treeNode, startPathIdentity)`: throws when the node's
path identity does not extend `startPathIdentity`, else the truncated
ancestor chain. -/
def treeNodePath (t : TreeNode) (startPathIdentity : String) :
    Except String (List TreeNode) :=
  if strStartsWith t.pathIdentity startPathIdentity then
    .ok (truncAtListChange (ancestorChain startPathIdentity t))
  else
    .error "treeNodePath: TreeNode does not start with that path identity"

/-- One check of the `matchLoop`: do all paths hold the node that the first
path holds at position `i`?  (`allPaths[j][i] !== matcher` breaks the loop;
a shorter path yields `undefined`, which never equals a node.) -/
def agreeAt (allPaths : List (List TreeNode)) (i : Nat) : Bool :=
  match allPaths with
  | [] => true
  | head :: rest =>
    match head[i]? with
    | none => false
    | some matcher => rest.all (fun p => decide (p[i]? = some matcher))

/-- The `matchLoop` of `assignCommonAncestorPathIdentity`: the largest `i`
such that positions `0..i` all agree across the paths — `none` when even
position `0` disagrees (`deepestCommonPath < 0`). -/
def deepestCommonPathIndex (allPaths : List (List TreeNode)) : Option Nat :=
  let c := ((List.range (allPaths.headD []).length).takeWhile
    (fun i => agreeAt allPaths i)).length
  if c = 0 then none else some (c - 1)

/-- The per-plan body of `assignCommonAncestorPathIdentity`: compute every
use site's `treeNodePath`, run the `matchLoop`, throw the internal error if
no common position exists, else assign
`allPaths[0][deepestCommonPath].pathIdentity`. -/
def assignCommonAncestorForPlan (treeNodes : List TreeNode)
    (parentPathIdentity : String) : Except String String := do
  let allPaths ← treeNodes.mapM (fun t => treeNodePath t parentPathIdentity)
  match deepestCommonPathIndex allPaths with
  | none =>
    .error "GraphileInternalError: the root tree node should be in common with every path"
  | some d =>
    match (allPaths.headD [])[d]? with
    | some node => .ok node.pathIdentity
    | none => .error "GraphileInternalError: deepest common position out of range"

/-- The longest common stem of two paths (specification-side definition:
compare position by position and stop at the first divergence). -/
def lcp2 : List TreeNode → List TreeNode → List TreeNode
  | a :: as_, b :: bs => if a = b then a :: lcp2 as_ bs else []
  | _, _ => []

/-- The longest common stem of all paths (specification-side definition:
fold the pairwise stem over all use sites). -/
def lcpAll : List (List TreeNode) → List TreeNode
  | [] => []
  | h :: t => t.foldl lcp2 h

/-!
### The `processPlans` traversal

`processPlans` walks the plan table, processing each plan object at most
once (the `processed` set), visiting dependents or dependencies first
according to `order`, invoking a callback on each plan and — when the
callback returns a replacement — overwriting every table slot holding the
old plan object and running the `onPlanReplacement` hook.  Recursion is
modelled with fuel bounding the recursion depth: a call at fuel `0` simply
returns the state unchanged (the source's recursion terminates because the
dependency graph is acyclic).  The callbacks used here (`deduplicatePlan`,
`optimizePlan`) create no new plans, so the `finalizeArgumentsSince` and
`validatePlans(oldPlanCount)` follow-ups are no-ops in the model.
-/

/-- The state threaded through `processPlans`: the live plan table, the
processed set (in reverse processing order), and callback state `σ`
(the `replacements` counter, the `optimizedPlans` set, …). -/
structure ProcessState (σ : Type) where
  table : PlanTable
  processed : List ExecutablePlan
  cbState : σ
deriving Repr

/-- JS `Set.add`: append if not already present (insertion order kept). -/
def insertIfNew (l : List PlanId) (x : PlanId) : List PlanId :=
  if x ∈ l then l else l ++ [x]

/-- The `first` set of `processPlans`: for `dependents-first` order, every
table plan one of whose resolved dependencies is this plan object; for
`dependencies-first` order, the plans the dependency ids resolve to.  (The
source adds `dependency.id` / `possibleDependent.id` to a `Set`.) -/
def firstIds (t : PlanTable) (dependentsFirst : Bool)
    (plan : ExecutablePlan) : List PlanId :=
  if dependentsFirst then
    (List.range t.length).foldl (fun acc j =>
      match planAt t j with
      | none => acc
      | some pd =>
        if pd.dependencies.any (fun d => planAt t d = some plan) then
          insertIfNew acc pd.pid
        else acc) []
  else
    plan.dependencies.foldl (fun acc d =>
      match planAt t d with
      | none => acc
      | some dep => insertIfNew acc dep.pid) []

/-- `for (const j of ids) if (this.plans[j] && this.plans[j].id === plan.id)
this.plans[j] = replacementPlan`: replace every slot aliasing the old
plan. -/
def replaceSlots (t : PlanTable) (oldPid : PlanId) (r : ExecutablePlan) :
    PlanTable :=
  t.map (fun slot =>
    match slot with
    | some q => if q.pid = oldPid then some r else some q
    | none => none)

/-- The `first` loop of `process`: recursively process each plan of the
`first` set that is live and unprocessed, checking `shouldAbort` (the slot
of the current plan was nulled) after each recursive call.  The returned
flag reports an abort. -/
def processFirstList {σ : Type}
    (rec : ProcessState σ → ExecutablePlan → Except String (ProcessState σ))
    (plan : ExecutablePlan) :
    List PlanId → ProcessState σ → Except String (ProcessState σ × Bool)
  | [], st => .ok (st, false)
  | d :: rest, st =>
    match planAt st.table d with
    | none => processFirstList rec plan rest st
    | some depPlan =>
      if depPlan ∈ st.processed then processFirstList rec plan rest st
      else do
        let st2 ← rec st depPlan
        if (planAt st2.table plan.pid).isNone then .ok (st2, true)
        else processFirstList rec plan rest st2

/-- The `process` closure of `processPlans` for one plan. -/
def processOne {σ : Type}
    (cb : PlanTable → σ → ExecutablePlan → Except String (ExecutablePlan × σ))
    (onReplace : PlanTable → PlanTable) (dependentsFirst : Bool) :
    Nat → ProcessState σ → ExecutablePlan → Except String (ProcessState σ)
  | 0, st, _ => .ok st
  | fuel + 1, st, plan =>
    if plan ∈ st.processed then .ok st
    else do
      let fr ← processFirstList (processOne cb onReplace dependentsFirst fuel)
        plan (firstIds st.table dependentsFirst plan) st
      if fr.2 then
        -- plan is no longer needed; aborting
        .ok fr.1
      else do
        let rs ← cb fr.1.table fr.1.cbState plan
        if rs.1 ≠ plan then
          .ok { table := onReplace (replaceSlots fr.1.table plan.pid rs.1),
                processed := plan :: fr.1.processed, cbState := rs.2 }
        else
          .ok { table := fr.1.table, processed := plan :: fr.1.processed,
                cbState := rs.2 }

/-- The top loop of `processPlans`: process the plan at every id of the
initial table. -/
def processPlans {σ : Type}
    (cb : PlanTable → σ → ExecutablePlan → Except String (ExecutablePlan × σ))
    (onReplace : PlanTable → PlanTable) (dependentsFirst : Bool)
    (fuel : Nat) (t : PlanTable) (s0 : σ) : Except String (ProcessState σ) :=
  (List.range t.length).foldlM (fun st i =>
    match planAt st.table i with
    | none => pure st
    | some p => processOne cb onReplace dependentsFirst fuel st p)
    ⟨t, [], s0⟩

namespace Aether

/-- The callback `deduplicatePlans` hands to `processPlans`: deduplicate
the plan, and count a replacement when the result differs. -/
def dedupCB (streamByPid : PlanId → Bool)
    (dedupF : ExecutablePlan → List ExecutablePlan → ExecutablePlan)
    (t : PlanTable) (n : Nat) (plan : ExecutablePlan) :
    Except String (ExecutablePlan × Nat) :=
  (deduplicatePlan t streamByPid dedupF plan).map
    (fun rb => (rb.1, if rb.1 ≠ plan then n + 1 else n))

/-- One pass of the `deduplicatePlans` fixpoint loop: a `processPlans` run
in `dependencies-first` order with no `onPlanReplacement` hook, returning
the resulting table and the number of replacements made. -/
def dedupPass (streamByPid : PlanId → Bool)
    (dedupF : ExecutablePlan → List ExecutablePlan → ExecutablePlan)
    (fuel : Nat) (t : PlanTable) : Except String (PlanTable × Nat) :=
  (processPlans (dedupCB streamByPid dedupF) id false fuel t 0).map
    (fun st => (st.table, st.cbState))

/-- `Aether.deduplicatePlans`: repeat the pass until it makes no
replacement; the loop counter caps at 10000 iterations, beyond which the
source throws. -/
def deduplicatePlans (streamByPid : PlanId → Bool)
    (dedupF : ExecutablePlan → List ExecutablePlan → ExecutablePlan)
    (fuel : Nat) : Nat → PlanTable → Except String PlanTable
  | 0, _ =>
    .error "deduplicatePlans has looped 10000 times and is still substituting out plans"
  | loops + 1, t => do
    let r ← dedupPass streamByPid dedupF fuel t
    if r.2 > 0 then deduplicatePlans streamByPid dedupF fuel loops r.1
    else .ok r.1

end Aether

/-- The per-pass bookkeeping of the optimize phase: the plans already
optimized (`this.optimizedPlans`) and, for the model, the log of plans whose
`optimize` method has been invoked, in invocation order. -/
structure OptState where
  optimizedPlans : List ExecutablePlan
  calls : List ExecutablePlan
deriving Repr

namespace Aether

/-- `Aether.optimizePlan`: throws if the plan was already optimized —
without invoking its `optimize` method again — otherwise calls
`plan.optimize(...)` (modelled by `optimizeF`, logged in `calls`) and marks
the plan optimized. -/
def optimizePlan (optimizeF : ExecutablePlan → ExecutablePlan)
    (st : OptState) (plan : ExecutablePlan) :
    Except String (ExecutablePlan × OptState) :=
  if plan ∈ st.optimizedPlans then
    .error "Must not optimize plan twice"
  else
    .ok (optimizeF plan,
      { optimizedPlans := plan :: st.optimizedPlans,
        calls := st.calls ++ [plan] })

/-- `Aether.optimizePlans`: a `processPlans` run in `dependents-first`
order whose callback is `optimizePlan` and whose `onPlanReplacement` hook
is tree-shaking (kept as the parameter `onReplace`). -/
def optimizePlans (optimizeF : ExecutablePlan → ExecutablePlan)
    (onReplace : PlanTable → PlanTable) (fuel : Nat) (t : PlanTable) :
    Except String (ProcessState OptState) :=
  processPlans (fun _ s p => optimizePlan optimizeF s p) onReplace true fuel t
    ⟨[], []⟩

end Aether

/-!
### Tree shaking (`Aether.treeShakePlans` / `Aether.markPlanActive`)

`markPlanActive` is the `MarkPlanActive` depth-first walk: it adds the plan
to the `activePlans` set and recurses into the plans its dependency ids
resolve to.  The `Set<ExecutablePlan>` becomes a list with membership
checks; the recursion, terminating in the source because the dependency
graph is acyclic, carries explicit fuel (a call with exhausted fuel leaves
the set unchanged; the claim theorem supplies a rank function showing the
fuel `t.length` used by `treeShakePlans` is always enough).
-/

/-- `Aether.markPlanActive(plan, activePlans)`.  A dependency id whose slot
is nulled (which would crash the source with a `TypeError`) is skipped. -/
def markPlanActive (t : PlanTable) : Nat → ExecutablePlan → List ExecutablePlan →
    List ExecutablePlan
  | 0, _, active => active
  | fuel + 1, plan, active =>
    if plan ∈ active then active
    else
      plan.dependencies.foldl
        (fun acc d =>
          match planAt t d with
          | none => acc
          | some q => markPlanActive t fuel q acc)
        (plan :: active)

/-- The four seed sources of `treeShakePlans`, in the order the source
visits them: the subscription item plan id (if any), the values of
`this.itemPlanIdByFieldPathIdentity`, the values of
`this.sideEffectPlanIdsByPathIdentity` (a list of ids per path identity),
and the values of `this.transformDependencyPlanIdByTransformPlanId`. -/
structure ShakeRoots where
  subscriptionItemPlanId : Option PlanId
  itemPlanIdByFieldPathIdentity : List PlanId
  sideEffectPlanIdsByPathIdentity : List (List PlanId)
  transformDependencyPlanIdByTransformPlanId : List PlanId
deriving Repr

/-- The flat list of seed plan ids `treeShakePlans` marks from. -/
def shakeSeeds (r : ShakeRoots) : List PlanId :=
  r.subscriptionItemPlanId.toList ++
    r.itemPlanIdByFieldPathIdentity ++
    r.sideEffectPlanIdsByPathIdentity.flatten ++
    r.transformDependencyPlanIdByTransformPlanId

/-- The marking stage of `treeShakePlans`: fold `markPlanActive` over the
seed ids.  (The source asserts every seed id resolves; a seed whose slot
does not resolve is skipped.) -/
def shakeActivePlans (t : PlanTable) (seeds : List PlanId) : List ExecutablePlan :=
  seeds.foldl
    (fun acc sid =>
      match planAt t sid with
      | none => acc
      | some p => markPlanActive t t.length p acc)
    []

/-- `Aether.treeShakePlans`: mark the active plans from the seeds, then
null out (`this.plans[i] = null`) every live slot whose plan is not in the
active set. -/
def treeShakePlans (t : PlanTable) (r : ShakeRoots) : PlanTable :=
  let activePlans := shakeActivePlans t (shakeSeeds r)
  t.map (fun slot =>
    match slot with
    | some p => if p ∈ activePlans then some p else none
    | none => none)

/-- A dependency edge of the plan graph: `q` is the plan some dependency id
of `p` resolves to in table `t`. -/
def depEdge (t : PlanTable) (p q : ExecutablePlan) : Prop :=
  ∃ d ∈ p.dependencies, planAt t d = some q

/-- Transitive-reflexive reachability along dependency edges. -/
def Reaches (t : PlanTable) : ExecutablePlan → ExecutablePlan → Prop :=
  Relation.ReflTransGen (depEdge t)

/-- A plan is reachable from the seed set when some seed id resolves to a
plan from which it is reachable along dependency edges. -/
def ReachableFromSeeds (t : PlanTable) (seeds : List PlanId)
    (p : ExecutablePlan) : Prop :=
  ∃ s ∈ seeds, ∃ q, planAt t s = some q ∧ Reaches t q p

/-- Two structurally identical peer plans in one table, for witnesses of
the deduplication pass. -/
def examplePlanP0 : ExecutablePlan :=
  { pid := 0, kind := 2, parentPathIdentity := "~", dependencies := [],
    hasSideEffects := false }

def examplePlanP1 : ExecutablePlan :=
  { pid := 1, kind := 2, parentPathIdentity := "~", dependencies := [],
    hasSideEffects := false }

def exampleDedupTable : PlanTable := [some examplePlanP0, some examplePlanP1]

/-- A small concrete selection tree used by witnesses: a root, a list field
`a` under it, the list's item boundary, and a field `b` under the items. -/
def exampleRootNode : TreeNode := .root "~" "~"

def exampleANode : TreeNode := .child "~>a" "~>a" exampleRootNode

def exampleItemNode : TreeNode := .child "~>a[]" "~>a" exampleANode

def exampleBNode : TreeNode := .child "~>a[]>b" "~>a[]>b" exampleItemNode

/-- A sample plan used to instantiate witness statements. -/
def examplePlan : ExecutablePlan :=
  { pid := 1, kind := 7, parentPathIdentity := "~", dependencies := [],
    hasSideEffects := false }

/-- Sample dependency values for three parents of a one-dependency plan:
parent 1 carries a `CrystalError` from the dependency, parents 0 and 2 are
healthy. -/
def exampleDeps : List (List (CVal String Nat)) :=
  [[.ok 1, .cerr "boom", .ok 3], [.ok 4, .ok 5, .ok 6]]

/-- A sample `execute`: succeeds for its first input entry and rejects for
its second. -/
def exampleExecF : List (List (CVal String Nat)) → List (Except String Nat) :=
  fun _ => [.ok 10, .error "reject"]

/-- A `__TrackedObjectPlan` holding a direct property reference to another
plan — the input on which the validation claim fails. -/
def exampleTrackedPlan : ExecutablePlan :=
  { pid := 1, kind := 3, parentPathIdentity := "~", dependencies := [],
    hasSideEffects := false, isTrackedObjectPlan := true,
    directPlanRefs := [2] }

/-- A three-plan table for the tree-shaking witness: plan `1` depends on
plan `0`; plan `2` hangs off nothing and is unreachable from the seeds. -/
def exampleShakePlanA : ExecutablePlan :=
  { pid := 0, kind := 1, parentPathIdentity := "~", dependencies := [],
    hasSideEffects := false }

def exampleShakePlanB : ExecutablePlan :=
  { pid := 1, kind := 1, parentPathIdentity := "~", dependencies := [0],
    hasSideEffects := false }

def exampleShakePlanC : ExecutablePlan :=
  { pid := 2, kind := 1, parentPathIdentity := "~", dependencies := [],
    hasSideEffects := false }

def exampleShakeTable : PlanTable :=
  [some exampleShakePlanA, some exampleShakePlanB, some exampleShakePlanC]

/-- Seeds for the tree-shaking witness: plan `1` is the item plan of the
lone field; no subscription, side effects or transforms. -/
def exampleShakeRoots : ShakeRoots := ⟨none, [1], [], []⟩

/-! ## Theorems -/

/-- The continuation of the chain never starts before the chain itself. -/
theorem sideEffectChain_le_end : ∀ (lats : List Nat) (t0 : Nat),
    t0 ≤ (sideEffectChain lats t0).2 := by
  intro lats
  induction lats with
  | nil => intro t0; simp [sideEffectChain]
  | cons l ls ih =>
    intro t0
    simp only [sideEffectChain]
    exact le_trans (Nat.le_add_right t0 l) (ih (t0 + l))

/-- Per-entry characterisation of the chain schedule: entry `i` starts no
earlier than `t0`, completes at `start + latency`, and completes no later
than the continuation's start. -/
theorem sideEffectChain_entry : ∀ (lats : List Nat) (t0 : Nat) (i s c : Nat),
    (sideEffectChain lats t0).1.get? i = some (s, c) →
    t0 ≤ s ∧ s + lats.getD i 0 = c ∧ c ≤ (sideEffectChain lats t0).2 := by
  intro lats
  induction lats with
  | nil => intro t0 i s c h; simp [sideEffectChain] at h
  | cons l ls ih =>
    intro t0 i s c h
    simp only [sideEffectChain] at h ⊢
    match i with
    | 0 =>
      simp at h
      obtain ⟨hs, hc⟩ := h
      have hend := sideEffectChain_le_end ls (t0 + l)
      refine ⟨by omega, by simp; omega, by omega⟩
    | Nat.succ i' =>
      simp only [List.get?] at h
      obtain ⟨h1, h2, h3⟩ := ih (t0 + l) i' s c h
      exact ⟨le_trans (Nat.le_add_right t0 l) h1, h2, h3⟩

/-- Entries of the chain schedule are sequential: an earlier entry completes
no later than a later entry starts. -/
theorem sideEffectChain_sequential : ∀ (lats : List Nat) (t0 : Nat)
    (i j si ci sj cj : Nat), i < j →
    (sideEffectChain lats t0).1.get? i = some (si, ci) →
    (sideEffectChain lats t0).1.get? j = some (sj, cj) →
    ci ≤ sj := by
  intro lats
  induction lats with
  | nil => intro t0 i j si ci sj cj _ hi; simp [sideEffectChain] at hi
  | cons l ls ih =>
    intro t0 i j si ci sj cj hij hi hj
    simp only [sideEffectChain] at hi hj
    match i, j with
    | 0, Nat.succ j' =>
      simp at hi
      obtain ⟨hs, hc⟩ := hi
      simp only [List.get?] at hj
      have := (sideEffectChain_entry ls (t0 + l) j' sj cj hj).1
      omega
    | Nat.succ i', Nat.succ j' =>
      simp only [List.get?] at hi hj
      exact ih (t0 + l) i' j' si ci sj cj (Nat.lt_of_succ_lt_succ hij) hi hj

/-- C4: for every field with side-effect plans declared in some order, batch
execution runs them via a sequential promise chain: whatever each plan's
individual latency, a plan declared earlier completes no later than any plan
declared after it starts (hence completions occur in declaration order), and
every side-effect plan completes before `executeBatchInner` — the field's
main plan and item-plan layers — begins. -/
theorem sideEffects_run_in_declaration_order_before_inner
    (lats : List Nat) (t0 : Nat) (i j si ci sj cj : Nat)
    (hij : i < j)
    (hi : (executeBatchSchedule lats t0).1.get? i = some (si, ci))
    (hj : (executeBatchSchedule lats t0).1.get? j = some (sj, cj)) :
    ci ≤ sj ∧ ci ≤ cj ∧
      ci ≤ (executeBatchSchedule lats t0).2 ∧
      cj ≤ (executeBatchSchedule lats t0).2 := by
  have hseq := sideEffectChain_sequential lats t0 i j si ci sj cj hij hi hj
  have hej := sideEffectChain_entry lats t0 j sj cj hj
  have hei := sideEffectChain_entry lats t0 i si ci hi
  have hsc : sj ≤ cj := by
    have := hej.2.1
    omega
  exact ⟨hseq, le_trans hseq hsc, hei.2.2, hej.2.2⟩

/-- Witness for C4 at a concrete schedule: three side-effect plans A, B, C
with latencies 5, 1, 7 (B is much faster than A) still complete in
declaration order, all before the inner batch starts. -/
theorem sideEffects_order_witness :
    (0 : Nat) < 1 ∧
    (executeBatchSchedule [5, 1, 7] 0).1.get? 0 = some (0, 5) ∧
    (executeBatchSchedule [5, 1, 7] 0).1.get? 1 = some (5, 6) ∧
    ((5 : Nat) ≤ 5 ∧ (5 : Nat) ≤ 6 ∧ (5 : Nat) ≤ 13 ∧ (6 : Nat) ≤ 13) := by
  refine ⟨by decide, by decide, by decide, ?_⟩
  exact sideEffects_run_in_declaration_order_before_inner [5, 1, 7] 0 0 1 0 5 5 6
    (by decide) (by decide) (by decide)

/-- C7: `_addPlan` succeeds exactly in the phases plan, validate,
deduplicate, optimize; in any other phase it throws (returning the error,
producing no modified state, so the plan table is unchanged). -/
theorem addPlan_succeeds_iff_phase (s : AetherState) (p : ExecutablePlan) :
    ((∃ s2 i, Aether._addPlan s p = .ok (s2, i)) ↔
      (s.phase = .plan ∨ s.phase = .validate ∨ s.phase = .deduplicate ∨
        s.phase = .optimize)) ∧
    (¬(s.phase = .plan ∨ s.phase = .validate ∨ s.phase = .deduplicate ∨
        s.phase = .optimize) →
      Aether._addPlan s p =
        .error "Creating a plan during the current phase is forbidden.") := by
  have hiff : phaseAllowsPlanCreation s.phase = true ↔
      (s.phase = .plan ∨ s.phase = .validate ∨ s.phase = .deduplicate ∨
        s.phase = .optimize) := by
    cases s.phase <;> simp [phaseAllowsPlanCreation]
  constructor
  · constructor
    · intro ⟨s2, i, h⟩
      by_contra hphase
      rw [← hiff] at hphase
      simp [Aether._addPlan, hphase] at h
    · intro hphase
      rw [← hiff] at hphase
      exact ⟨⟨s.phase, s.plans ++ [some p], s.planCount + 1⟩, s.planCount,
        by simp [Aether._addPlan, hphase]⟩
  · intro hphase
    rw [← hiff] at hphase
    simp [Aether._addPlan, hphase]

/-- Witness for C7: in the `finalize` phase `_addPlan` throws. -/
theorem addPlan_phase_witness :
    ¬((AetherPhase.finalize = .plan ∨ AetherPhase.finalize = .validate ∨
        AetherPhase.finalize = .deduplicate ∨ AetherPhase.finalize = .optimize)) ∧
    Aether._addPlan ⟨.finalize, [], 0⟩ examplePlan =
      .error "Creating a plan during the current phase is forbidden." :=
  ⟨by decide,
    (addPlan_succeeds_iff_phase ⟨.finalize, [], 0⟩ examplePlan).2 (by decide)⟩

/-- C10: `deduplicatePlan` skips streaming plans just as it skips
side-effect plans: whenever the plan's options carry a stream setting the
plan is returned unchanged and its `deduplicate` method is never invoked
(the `false` flag), so a streamed plan is never merged with a peer. -/
theorem deduplicatePlan_skips_stream (t : PlanTable) (streamByPid : PlanId → Bool)
    (dedupF : ExecutablePlan → List ExecutablePlan → ExecutablePlan)
    (plan : ExecutablePlan) (h : streamByPid plan.pid = true) :
    Aether.deduplicatePlan t streamByPid dedupF plan = .ok (plan, false) := by
  unfold Aether.deduplicatePlan
  cases hse : plan.hasSideEffects <;> simp [hse, h]

/-- Counterexample to C9 as stated: a `__TrackedObjectPlan` holding a direct
property reference to another `ExecutablePlan` passes validation — the scan
exempts `__TrackedObjectPlan` (`referencingPlanIsAllowed`), so the validate
phase does not raise an error for every plan with a direct reference. -/
theorem validatePlans_tracked_counterexample :
    exampleTrackedPlan.directPlanRefs ≠ [] ∧
    Aether.validatePlans [some exampleTrackedPlan] 0 = .ok () := by
  constructor
  · decide
  · rfl

/-- C9 (amended): the validate phase raises an error exactly when some plan
in the scanned range that is not a `__TrackedObjectPlan` holds a direct
property reference to another `ExecutablePlan`; equivalently, validation
passes iff every scanned plan either is a `__TrackedObjectPlan` or holds no
direct plan references. -/
theorem validatePlans_ok_iff (t : PlanTable) (offset : Nat) :
    Aether.validatePlans t offset = .ok () ↔
      ∀ i ∈ (List.range t.length).drop offset, ∀ p, planAt t i = some p →
        p.isTrackedObjectPlan = true ∨ p.directPlanRefs = [] := by
  unfold Aether.validatePlans
  have hiff : planValidationErrors t offset = [] ↔
      ∀ i ∈ (List.range t.length).drop offset, ∀ p, planAt t i = some p →
        p.isTrackedObjectPlan = true ∨ p.directPlanRefs = [] := by
    unfold planValidationErrors
    rw [List.flatten_eq_nil_iff]
    constructor
    · intro h i hi p hp
      have := h _ (List.mem_map_of_mem _ hi)
      simp only [hp] at this
      by_cases htr : p.isTrackedObjectPlan
      · exact Or.inl htr
      · refine Or.inr ?_
        simp [htr] at this
        exact this
    · intro h l hl
      obtain ⟨i, hi, rfl⟩ := List.mem_map.mp hl
      cases hp : planAt t i with
      | none => simp [hp]
      | some p =>
        rcases h i hi p hp with htr | hrefs
        · simp [hp, htr]
        · simp [hp, hrefs]
  constructor
  · intro h
    rw [← hiff]
    cases he : planValidationErrors t offset with
    | nil => rfl
    | cons e es => rw [he] at h; exact absurd h (by simp)
  · intro h
    rw [← hiff] at h
    rw [h]

/-- Witness for C9's amended theorem at a concrete table: a one-plan table
whose only plan holds no direct references passes validation. -/
theorem validatePlans_ok_witness :
    Aether.validatePlans [some examplePlan] 0 = .ok () :=
  (validatePlans_ok_iff [some examplePlan] 0).mpr (by decide)

/-- Witness for C10: a concrete streamed plan is returned unchanged with its
`deduplicate` method uncalled. -/
theorem deduplicatePlan_stream_witness :
    (fun _ => true : PlanId → Bool) examplePlan.pid = true ∧
    Aether.deduplicatePlan [some examplePlan] (fun _ => true)
      (fun p _ => p) examplePlan = .ok (examplePlan, false) :=
  ⟨rfl, deduplicatePlan_skips_stream [some examplePlan] (fun _ => true)
    (fun p _ => p) examplePlan rfl⟩

/-! #### Lemmas for the `executePlanPending` model -/

/-- Erasing a column at position `n` does not change the error scan of any
column strictly below `n`. -/
theorem firstDepErrorAt_eraseIdx {E V : Type} (deps : List (List (CVal E V)))
    (n i : Nat) (h : i < n) :
    firstDepErrorAt (deps.map (fun col => col.eraseIdx n)) i =
      firstDepErrorAt deps i := by
  induction deps with
  | nil => rfl
  | cons col rest ih =>
    simp only [List.map_cons, firstDepErrorAt]
    have hg : (col.eraseIdx n).getD i CVal.undef = col.getD i CVal.undef := by
      simp only [List.getD_eq_getElem?_getD, List.getElem?_eraseIdx_of_lt col n i h]
    rw [hg]
    cases col.getD i CVal.undef <;> simp [ih]

theorem selectIdxs_append {α : Type} (col : List α) (a b : List Nat) :
    selectIdxs col (a ++ b) = selectIdxs col a ++ selectIdxs col b := by
  simp [selectIdxs]

/-- Selection below `n` is unaffected by erasing column `n`. -/
theorem selectIdxs_eraseIdx {α : Type} (col : List α) (n : Nat) (idxs : List Nat)
    (h : ∀ i ∈ idxs, i < n) :
    selectIdxs (col.eraseIdx n) idxs = selectIdxs col idxs := by
  unfold selectIdxs
  apply List.filterMap_congr
  intro i hi
  exact List.getElem?_eraseIdx_of_lt col n i (h i hi)

theorem healthyIdxs_bounded {E V : Type} (deps : List (List (CVal E V))) (n : Nat) :
    ∀ i ∈ healthyIdxs deps n, i < n := by
  intro i hi
  have := List.mem_filter.mp hi
  exact List.mem_range.mp this.1

theorem healthyIdxs_nodup {E V : Type} (deps : List (List (CVal E V))) (n : Nat) :
    (healthyIdxs deps n).Nodup :=
  (List.nodup_range n).filter _

/-- The main characterisation of the descending splice loop of
`executePlanPending` in terms of the original dependency lists: the spliced
lists keep exactly the healthy columns, the real indexes are the healthy
ones in descending push order, and the error writes record, for each
erroring column, its first erroring dependency value. -/
theorem pendLoop_spec {E V : Type} : ∀ (n : Nat) (deps : List (List (CVal E V))),
    (∀ col ∈ deps, n ≤ col.length) →
    (pendLoop deps n).1 = deps.map (fun col =>
        selectIdxs col (healthyIdxs deps n) ++ col.drop n) ∧
    (pendLoop deps n).2.1 = (healthyIdxs deps n).reverse ∧
    (pendLoop deps n).2.2 = ((List.range n).reverse).filterMap
        (fun i => (firstDepErrorAt deps i).map (fun e => (i, e))) := by
  intro n
  induction n with
  | zero =>
    intro deps _
    simp [pendLoop, healthyIdxs, selectIdxs]
  | succ n ih =>
    intro deps hlen
    have hrange : List.range (n + 1) = List.range n ++ [n] := by
      rw [List.range_succ]
    have hfiltersplit : healthyIdxs deps (n + 1) =
        healthyIdxs deps n ++
          (if (firstDepErrorAt deps n).isNone then [n] else []) := by
      unfold healthyIdxs
      rw [hrange, List.filter_append]
      congr 1
      by_cases hcase : (firstDepErrorAt deps n).isNone <;> simp [hcase]
    cases herr : firstDepErrorAt deps n with
    | none =>
      have hlen' : ∀ col ∈ deps, n ≤ col.length := fun col hc =>
        Nat.le_of_succ_le (hlen col hc)
      obtain ⟨ih1, ih2, ih3⟩ := ih deps hlen'
      have hhealthy : healthyIdxs deps (n + 1) = healthyIdxs deps n ++ [n] := by
        rw [hfiltersplit, herr]; rfl
      refine ⟨?_, ?_, ?_⟩
      · simp only [pendLoop, herr, ih1]
        apply List.map_congr_left
        intro col hc
        rw [hhealthy, selectIdxs_append]
        have hn : n < col.length := hlen col hc
        have hget : col[n]? = some (col.get ⟨n, hn⟩) := by
          simp [List.getElem?_eq_getElem hn]
        have hsel : selectIdxs col [n] = [col.get ⟨n, hn⟩] := by
          simp [selectIdxs, hget]
        rw [hsel, List.append_assoc]
        congr 1
        rw [List.drop_eq_getElem_cons hn]
        rfl
      · simp only [pendLoop, herr, ih2, hhealthy, List.reverse_append,
          List.reverse_singleton, List.singleton_append]
      · simp only [pendLoop, herr, ih3, hrange, List.reverse_append,
          List.reverse_singleton, List.singleton_append, List.filterMap_cons, herr]
        simp [herr]
    | some e =>
      have hlen' : ∀ col' ∈ deps.map (fun col => col.eraseIdx n), n ≤ col'.length := by
        intro col' hc'
        obtain ⟨col, hc, rfl⟩ := List.mem_map.mp hc'
        have := hlen col hc
        rw [List.length_eraseIdx]
        split <;> omega
      obtain ⟨ih1, ih2, ih3⟩ := ih (deps.map (fun col => col.eraseIdx n)) hlen'
      have hhsame : healthyIdxs (deps.map (fun col => col.eraseIdx n)) n =
          healthyIdxs deps n := by
        unfold healthyIdxs
        apply List.filter_congr
        intro i hi
        rw [firstDepErrorAt_eraseIdx deps n i (List.mem_range.mp hi)]
      have hhealthy : healthyIdxs deps (n + 1) = healthyIdxs deps n := by
        rw [hfiltersplit, herr]; simp
      refine ⟨?_, ?_, ?_⟩
      · simp only [pendLoop, herr, ih1, hhsame, List.map_map]
        apply List.map_congr_left
        intro col hc
        simp only [Function.comp_apply]
        rw [hhealthy,
          selectIdxs_eraseIdx col n (healthyIdxs deps n) (healthyIdxs_bounded deps n)]
        congr 1
        have hn : n < col.length := hlen col hc
        have htake : (col.take n).length = n := by
          rw [List.length_take]; omega
        rw [List.eraseIdx_eq_take_drop_succ]
        exact List.drop_left' htake
      · simp only [pendLoop, herr, ih2, hhsame, hhealthy]
      · simp only [pendLoop, herr, ih3, hrange, List.reverse_append,
          List.reverse_singleton, List.singleton_append, List.filterMap_cons]
        have : ∀ i ∈ (List.range n).reverse,
            (firstDepErrorAt (deps.map (fun col => col.eraseIdx n)) i).map
                (fun e2 => (i, e2)) =
              (firstDepErrorAt deps i).map (fun e2 => (i, e2)) := by
          intro i hi
          rw [firstDepErrorAt_eraseIdx deps n i
            (List.mem_range.mp (List.mem_reverse.mp hi))]
        rw [List.filterMap_congr this]
        simp [herr]

theorem applyWrites_cons {α : Type} (w : Nat × α) (ws : List (Nat × α)) (l : List α) :
    applyWrites (w :: ws) l = applyWrites ws (l.set w.1 w.2) := rfl

theorem applyWrites_append {α : Type} (a b : List (Nat × α)) (l : List α) :
    applyWrites (a ++ b) l = applyWrites b (applyWrites a l) := by
  simp [applyWrites, List.foldl_append]

theorem applyWrites_length {α : Type} (ws : List (Nat × α)) :
    ∀ l : List α, (applyWrites ws l).length = l.length := by
  induction ws with
  | nil => intro l; rfl
  | cons w ws ih =>
    intro l
    rw [applyWrites_cons, ih, List.length_set]

theorem applyWrites_getElem?_of_not_mem {α : Type} (ws : List (Nat × α)) :
    ∀ (l : List α) (i : Nat), i ∉ ws.map Prod.fst →
      (applyWrites ws l)[i]? = l[i]? := by
  induction ws with
  | nil => intro l i _; rfl
  | cons w ws ih =>
    intro l i h
    rw [List.map_cons, List.mem_cons] at h
    push_neg at h
    rw [applyWrites_cons, ih _ _ h.2, List.getElem?_set_ne (Ne.symm h.1)]

theorem applyWrites_getElem?_of_mem {α : Type} (ws : List (Nat × α)) :
    ∀ (l : List α) (i : Nat) (v : α), (ws.map Prod.fst).Nodup →
      (i, v) ∈ ws → i < l.length → (applyWrites ws l)[i]? = some v := by
  induction ws with
  | nil => intro l i v _ hmem; cases hmem
  | cons w ws ih =>
    intro l i v hnd hmem hlen
    rw [List.map_cons, List.nodup_cons] at hnd
    rw [applyWrites_cons]
    rcases List.mem_cons.mp hmem with heq | htail
    · rw [← heq] at hnd ⊢
      rw [applyWrites_getElem?_of_not_mem ws _ i hnd.1]
      exact List.getElem?_set_self hlen
    · have hi : i ∈ ws.map Prod.fst := List.mem_map.mpr ⟨(i, v), htail, rfl⟩
      have hne : i ≠ w.1 := fun hcontra => hnd.1 (hcontra ▸ hi)
      exact ih _ i v hnd.2 htail (by rw [List.length_set]; exact hlen)

/-- The first components of the error-write list produced by the splice
loop are the erroring column indexes. -/
theorem filterMap_err_keys {E : Type} (g : Nat → Option E) (xs : List Nat) :
    (xs.filterMap (fun i => (g i).map (fun e => (i, e)))).map Prod.fst =
      xs.filter (fun i => (g i).isSome) := by
  induction xs with
  | nil => rfl
  | cons x xs ih =>
    rw [List.filterMap_cons]
    cases hx : g x with
    | none => simp [hx, ih]
    | some e => simp [hx, ih]

/-- C6: when a dependency's execution failed for some parents in a batch,
those parents short-circuit: each such parent's result is the very
`CrystalError` value produced by its first erroring dependency, stored in
the result array and recorded as a bucket write (not thrown); the plan's
own `execute` receives exactly the dependency columns of the non-erroring
parents (and is skipped entirely when every parent errored); and each
remaining parent's result — including a rejection caught and wrapped into a
`CrystalError` — is computed normally from `execute`'s output and likewise
stored and written. -/
theorem executePlanPending_error_isolation {E V : Type}
    (n : Nat) (deps : List (List (CVal E V)))
    (execF : List (List (CVal E V)) → List (Except E V))
    (hcols : ∀ col ∈ deps, col.length = n) :
    ((executePlanPendingModel n deps execF).2.2 =
      if healthyIdxs deps n = [] then none
      else some (deps.map (fun col => selectIdxs col (healthyIdxs deps n)))) ∧
    (∀ (i : Nat) (e : E), i < n → firstDepErrorAt deps i = some e →
      ((executePlanPendingModel n deps execF).1)[i]? = some (CVal.cerr e) ∧
      (i, CVal.cerr e) ∈ (executePlanPendingModel n deps execF).2.1) ∧
    (∀ (p i : Nat) (r : Except E V), (healthyIdxs deps n)[p]? = some i →
      (execF (deps.map (fun col => selectIdxs col (healthyIdxs deps n))))[p]? = some r →
      ((executePlanPendingModel n deps execF).1)[i]? = some (cvalOfExec r) ∧
      (i, cvalOfExec r) ∈ (executePlanPendingModel n deps execF).2.1) := by
  have hle : ∀ col ∈ deps, n ≤ col.length := fun c hc => (hcols c hc).symm.le
  obtain ⟨h1, h2, h3⟩ := pendLoop_spec n deps hle
  have hfiltered : (pendLoop deps n).1 =
      deps.map (fun col => selectIdxs col (healthyIdxs deps n)) := by
    rw [h1]
    apply List.map_congr_left
    intro col hc
    rw [List.drop_eq_nil_of_le (le_of_eq (hcols col hc)), List.append_nil]
  have hreal : (pendLoop deps n).2.1.reverse = healthyIdxs deps n := by
    rw [h2, List.reverse_reverse]
  have herrmem : ∀ i e, i < n → firstDepErrorAt deps i = some e →
      (i, e) ∈ (pendLoop deps n).2.2 := by
    intro i e hi he
    rw [h3]
    exact List.mem_filterMap.mpr
      ⟨i, List.mem_reverse.mpr (List.mem_range.mpr hi), by rw [he]; rfl⟩
  have herrW : ∀ i e, i < n → firstDepErrorAt deps i = some e →
      (i, CVal.cerr (V := V) e) ∈ errWritesOf (pendLoop deps n).2.2 := by
    intro i e hi he
    exact List.mem_map.mpr ⟨(i, e), herrmem i e hi he, rfl⟩
  have herrkeys : (errWritesOf (V := V) (pendLoop deps n).2.2).map Prod.fst =
      ((List.range n).reverse).filter (fun i => (firstDepErrorAt deps i).isSome) := by
    rw [errWritesOf, h3, List.map_map]
    have : (Prod.fst ∘ fun w : Nat × E => (w.1, CVal.cerr (V := V) w.2)) =
        Prod.fst := rfl
    rw [this, filterMap_err_keys]
  have herrnodup : ((errWritesOf (V := V) (pendLoop deps n).2.2).map Prod.fst).Nodup := by
    rw [herrkeys]
    exact (List.nodup_reverse.mpr (List.nodup_range n)).filter _
  have herrkey_not_healthy : ∀ i e, firstDepErrorAt deps i = some e →
      i ∉ healthyIdxs deps n := by
    intro i e he hmem
    have := (List.mem_filter.mp hmem).2
    rw [he] at this
    exact absurd this (by simp)
  by_cases hH : healthyIdxs deps n = []
  · -- every parent errored: execution skipped
    have hempty : (pendLoop deps n).2.1.reverse.isEmpty = true := by
      rw [hreal, hH]; rfl
    refine ⟨?_, ?_, ?_⟩
    · simp only [executePlanPendingModel, hempty, if_true, hH, if_pos rfl]
    · intro i e hi he
      simp only [executePlanPendingModel, hempty, if_true]
      constructor
      · exact applyWrites_getElem?_of_mem _ _ i _ herrnodup (herrW i e hi he)
          (by rw [List.length_replicate]; exact hi)
      · exact herrW i e hi he
    · intro p i r hp _
      rw [hH] at hp
      simp at hp
  · -- at least one healthy parent: execute runs on the spliced columns
    have hempty : (pendLoop deps n).2.1.reverse.isEmpty = false := by
      rw [hreal]
      exact List.isEmpty_eq_false.mpr hH
    have hrealkeys : (realWritesOf (execF (pendLoop deps n).1)
          (pendLoop deps n).2.1.reverse).map Prod.fst = healthyIdxs deps n := by
      rw [realWritesOf, List.map_map]
      have : (Prod.fst ∘ fun pi : Nat × Nat =>
          (pi.2, outValOf (execF (pendLoop deps n).1) pi.1)) = Prod.snd := rfl
      rw [this, List.enum_map_snd, hreal]
    have hrealnodup : ((realWritesOf (execF (pendLoop deps n).1)
          (pendLoop deps n).2.1.reverse).map Prod.fst).Nodup := by
      rw [hrealkeys]
      exact healthyIdxs_nodup deps n
    refine ⟨?_, ?_, ?_⟩
    · simp only [executePlanPendingModel, hempty, Bool.false_eq_true, if_false,
        if_neg hH, hfiltered]
    · intro i e hi he
      have hnotreal : i ∉ (realWritesOf (execF (pendLoop deps n).1)
          (pendLoop deps n).2.1.reverse).map Prod.fst := by
        rw [hrealkeys]
        exact herrkey_not_healthy i e he
      simp only [executePlanPendingModel, hempty, Bool.false_eq_true, if_false]
      constructor
      · rw [applyWrites_append, applyWrites_getElem?_of_not_mem _ _ i hnotreal]
        exact applyWrites_getElem?_of_mem _ _ i _ herrnodup (herrW i e hi he)
          (by rw [List.length_replicate]; exact hi)
      · exact List.mem_append_left _ (herrW i e hi he)
    · intro p i r hp hr
      have himem : i ∈ healthyIdxs deps n := List.getElem?_mem hp
      have hival : i < n := healthyIdxs_bounded deps n i himem
      have hpmem : (p, i) ∈ (pendLoop deps n).2.1.reverse.enum := by
        have hg : ((pendLoop deps n).2.1.reverse.enum)[p]? = some (p, i) := by
          rw [List.getElem?_enum, hreal, hp]
          rfl
        exact List.getElem?_mem hg
      have houtval : outValOf (execF (pendLoop deps n).1) p = cvalOfExec r := by
        rw [outValOf, hfiltered, hr]
      have hrmem : (i, cvalOfExec r) ∈ realWritesOf (execF (pendLoop deps n).1)
          (pendLoop deps n).2.1.reverse := by
        refine List.mem_map.mpr ⟨(p, i), hpmem, ?_⟩
        simp only
        rw [houtval]
      simp only [executePlanPendingModel, hempty, Bool.false_eq_true, if_false]
      constructor
      · rw [applyWrites_append]
        exact applyWrites_getElem?_of_mem _ _ i _ hrealnodup hrmem
          (by rw [applyWrites_length, List.length_replicate]; exact hival)
      · exact List.mem_append_right _ hrmem

/-! #### Lemmas for the common-ancestor model -/

theorem prefix_getElem? {α : Type} (l1 l2 : List α) (i : Nat) (a : α)
    (h : l1 <+: l2) (hi : l1[i]? = some a) : l2[i]? = some a := by
  have hlt : i < l1.length := by
    by_contra hge
    rw [List.getElem?_eq_none (Nat.le_of_not_lt hge)] at hi
    cases hi
  rw [List.prefix_iff_eq_take.mp h] at hi
  rw [← List.getElem?_take_of_lt hlt]
  exact hi

theorem prefix_antisymm {α : Type} (l1 l2 : List α)
    (h1 : l1 <+: l2) (h2 : l2 <+: l1) : l1 = l2 := by
  have hlen : l1.length = l2.length :=
    Nat.le_antisymm h1.length_le h2.length_le
  rw [List.prefix_iff_eq_take.mp h1, hlen, List.take_length]

theorem lcp2_prefix_left : ∀ (a b : List TreeNode), lcp2 a b <+: a
  | [], _ => by simp [lcp2]
  | _ :: _, [] => by simp [lcp2]
  | x :: xs, y :: ys => by
    simp only [lcp2]
    by_cases hxy : x = y
    · rw [if_pos hxy]
      exact List.cons_prefix_cons.mpr ⟨rfl, lcp2_prefix_left xs ys⟩
    · rw [if_neg hxy]
      exact List.nil_prefix

theorem lcp2_prefix_right : ∀ (a b : List TreeNode), lcp2 a b <+: b
  | [], b => by simp [lcp2]
  | _ :: _, [] => by simp [lcp2]
  | x :: xs, y :: ys => by
    simp only [lcp2]
    by_cases hxy : x = y
    · rw [if_pos hxy]
      exact List.cons_prefix_cons.mpr ⟨hxy, lcp2_prefix_right xs ys⟩
    · rw [if_neg hxy]
      exact List.nil_prefix

theorem prefix_lcp2 : ∀ (l a b : List TreeNode), l <+: a → l <+: b → l <+: lcp2 a b
  | [], _, _, _, _ => List.nil_prefix
  | z :: zs, a, b, ha, hb => by
    obtain ⟨ta, hta⟩ := ha
    obtain ⟨tb, htb⟩ := hb
    subst hta
    subst htb
    simp only [List.cons_append, lcp2]
    rw [if_pos trivial]
    exact List.cons_prefix_cons.mpr ⟨rfl, prefix_lcp2 zs (zs ++ ta) (zs ++ tb)
      (List.prefix_append zs ta) (List.prefix_append zs tb)⟩

theorem foldl_lcp2_prefix_acc : ∀ (t : List (List TreeNode)) (acc : List TreeNode),
    t.foldl lcp2 acc <+: acc
  | [], acc => List.prefix_refl acc
  | p :: t, acc => by
    rw [List.foldl_cons]
    exact (foldl_lcp2_prefix_acc t (lcp2 acc p)).trans (lcp2_prefix_left acc p)

theorem foldl_lcp2_prefix_mem : ∀ (t : List (List TreeNode)) (acc : List TreeNode)
    (p : List TreeNode), p ∈ t → t.foldl lcp2 acc <+: p
  | [], _, _, hmem => absurd hmem (List.not_mem_nil _)
  | q :: t, acc, p, hmem => by
    rw [List.foldl_cons]
    rcases List.mem_cons.mp hmem with heq | htail
    · subst heq
      exact (foldl_lcp2_prefix_acc t (lcp2 acc p)).trans (lcp2_prefix_right acc p)
    · exact foldl_lcp2_prefix_mem t (lcp2 acc q) p htail

theorem prefix_foldl_lcp2 : ∀ (t : List (List TreeNode)) (acc l : List TreeNode),
    l <+: acc → (∀ p ∈ t, l <+: p) → l <+: t.foldl lcp2 acc
  | [], _, _, hacc, _ => hacc
  | q :: t, acc, l, hacc, hall => by
    rw [List.foldl_cons]
    exact prefix_foldl_lcp2 t (lcp2 acc q) l
      (prefix_lcp2 l acc q hacc (hall q (List.mem_cons_self q t)))
      (fun p hp => hall p (List.mem_cons_of_mem q hp))

/-- The `takeWhile`-over-`range` reading of the `matchLoop`: the prefix
length is bounded, every position below it satisfies the check, and the
first position after it (if any) fails the check. -/
theorem takeWhile_range_spec (p : Nat → Bool) (n : Nat) :
    ((List.range n).takeWhile p).length ≤ n ∧
    (∀ i, i < ((List.range n).takeWhile p).length → p i = true) ∧
    (((List.range n).takeWhile p).length < n →
      p (((List.range n).takeWhile p).length) = false) := by
  have hsub : ((List.range n).takeWhile p).length ≤ n := by
    have := (List.takeWhile_sublist (l := List.range n) p).length_le
    rwa [List.length_range] at this
  have htake : (List.range n).takeWhile p =
      List.range (((List.range n).takeWhile p).length) := by
    have hp := List.takeWhile_prefix (l := List.range n) p
    conv_lhs => rw [List.prefix_iff_eq_take.mp hp]
    rw [List.take_range, Nat.min_eq_left hsub]
  refine ⟨hsub, ?_, ?_⟩
  · intro i hi
    have hmem : i ∈ (List.range n).takeWhile p := by
      rw [htake]
      exact List.mem_range.mpr hi
    exact List.mem_takeWhile_imp hmem
  · intro hlt
    have hsplit := List.takeWhile_append_dropWhile p (List.range n)
    have hlens : ((List.range n).takeWhile p).length +
        ((List.range n).dropWhile p).length = n := by
      have := congrArg List.length hsplit
      rwa [List.length_append, List.length_range] at this
    have hne : (List.range n).dropWhile p ≠ [] := by
      intro hcon
      rw [hcon] at hlens
      simp at hlens
      omega
    have hhead := List.head_dropWhile_not p (List.range n) hne
    have hgetapp : ((List.range n).takeWhile p ++ (List.range n).dropWhile p)[
        ((List.range n).takeWhile p).length]? = ((List.range n).dropWhile p)[0]? := by
      rw [List.getElem?_append_right (Nat.le_refl _), Nat.sub_self]
    have hdrop0 : ((List.range n).dropWhile p)[0]? =
        some (((List.range n).takeWhile p).length) := by
      rw [← hgetapp, hsplit]
      exact List.getElem?_range hlt
    obtain ⟨hl0, hv0⟩ := List.getElem?_eq_some.mp hdrop0
    have hheadval : ((List.range n).dropWhile p).head hne =
        ((List.range n).takeWhile p).length := by
      rw [List.head_eq_getElem _ hne]
      exact hv0
    rw [hheadval] at hhead
    exact hhead

/-- The `matchLoop` check at position `i` succeeds exactly when all paths
hold one common node there. -/
theorem agreeAt_true_iff (h : List TreeNode) (t : List (List TreeNode)) (i : Nat) :
    agreeAt (h :: t) i = true ↔
      ∃ m, h[i]? = some m ∧ ∀ p ∈ t, p[i]? = some m := by
  simp only [agreeAt]
  cases hh : h[i]? with
  | none =>
    simp only [Bool.false_eq_true, false_iff]
    rintro ⟨m, hm, _⟩
    cases hm
  | some m =>
    rw [List.all_eq_true]
    constructor
    · intro hall
      exact ⟨m, rfl, fun p hp => of_decide_eq_true (hall p hp)⟩
    · rintro ⟨m2, hm2, hall⟩
      have hmm : m = m2 := Option.some.inj hm2
      subst hmm
      intro p hp
      exact decide_eq_true (hall p hp)

/-- The longest common stem of all paths equals the head path cut at the
length found by the `matchLoop`. -/
theorem lcpAll_eq_take (h : List TreeNode) (t : List (List TreeNode)) :
    lcpAll (h :: t) =
      h.take (((List.range h.length).takeWhile
        (fun i => agreeAt (h :: t) i)).length) := by
  obtain ⟨hc_le, hc_true, hc_false⟩ :=
    takeWhile_range_spec (fun i => agreeAt (h :: t) i) h.length
  set c := ((List.range h.length).takeWhile (fun i => agreeAt (h :: t) i)).length
    with hcdef
  have hLdef : lcpAll (h :: t) = t.foldl lcp2 h := rfl
  have htake_len : (h.take c).length = c := by
    rw [List.length_take]
    omega
  have htakepre_h : h.take c <+: h := List.take_prefix c h
  have htakepre : ∀ p ∈ t, h.take c <+: p := by
    intro p hp
    have heq : h.take c = p.take c := by
      apply List.ext_getElem?
      intro i
      by_cases hic : i < c
      · obtain ⟨m, hm, hall⟩ := (agreeAt_true_iff h t i).mp (hc_true i hic)
        rw [List.getElem?_take_of_lt hic, List.getElem?_take_of_lt hic, hm,
          hall p hp]
      · have h1 : (h.take c)[i]? = none := by
          apply List.getElem?_eq_none
          rw [List.length_take]
          omega
        have h2 : (p.take c)[i]? = none := by
          apply List.getElem?_eq_none
          rw [List.length_take]
          omega
        rw [h1, h2]
    rw [heq]
    exact List.take_prefix c p
  have hLpre_h : lcpAll (h :: t) <+: h := by
    rw [hLdef]
    exact foldl_lcp2_prefix_acc t h
  have hLpre : ∀ p ∈ t, lcpAll (h :: t) <+: p := by
    intro p hp
    rw [hLdef]
    exact foldl_lcp2_prefix_mem t h p hp
  have h1 : h.take c <+: lcpAll (h :: t) := by
    rw [hLdef]
    exact prefix_foldl_lcp2 t h (h.take c) htakepre_h htakepre
  have hc_le_L : c ≤ (lcpAll (h :: t)).length := by
    have := h1.length_le
    rwa [htake_len] at this
  have hnotgt : ¬ c < (lcpAll (h :: t)).length := by
    intro hlt2
    have hlenh : (lcpAll (h :: t)).length ≤ h.length := hLpre_h.length_le
    have hcn : c < h.length := lt_of_lt_of_le hlt2 hlenh
    have hfalse := hc_false hcn
    obtain ⟨m, hm⟩ : ∃ m, (lcpAll (h :: t))[c]? = some m :=
      ⟨_, List.getElem?_eq_getElem hlt2⟩
    have hagree : agreeAt (h :: t) c = true :=
      (agreeAt_true_iff h t c).mpr
        ⟨m, prefix_getElem? _ _ _ _ hLpre_h hm,
          fun p hp => prefix_getElem? _ _ _ _ (hLpre p hp) hm⟩
    simp only [hagree] at hfalse
    cases hfalse
  have hlen_eq : (lcpAll (h :: t)).length = c :=
    Nat.le_antisymm (Nat.le_of_not_lt hnotgt) hc_le_L
  have heq := List.prefix_iff_eq_take.mp h1
  rw [htake_len] at heq
  rw [heq, ← hlen_eq, List.take_length]

/-- When every use-site node extends the start path identity, every
`treeNodePath` call succeeds with the truncated ancestor chain. -/
theorem mapM_treeNodePath (ts : List TreeNode) (s : String)
    (hpre : ∀ t ∈ ts, strStartsWith t.pathIdentity s = true) :
    ts.mapM (fun t => treeNodePath t s) =
      Except.ok (ts.map (fun t => truncAtListChange (ancestorChain s t))) := by
  induction ts with
  | nil => rfl
  | cons a ts ih =>
    have ha := hpre a (List.mem_cons_self a ts)
    have hrest := ih (fun t ht => hpre t (List.mem_cons_of_mem a ht))
    rw [List.mapM_cons, hrest]
    simp only [treeNodePath, ha, if_true]
    rfl

/-- C5: the common-ancestor path identity assigned in the finalize phase is
the path identity of the deepest tree node common to the root-to-node paths
of the plan's use sites — each path truncated by `treeNodePath` at the first
list (item) boundary after the plan's `parentPathIdentity` — formalised as
the last element of the paths' longest common stem; the computation fails
with the internal error exactly when no common node exists (the stem is
empty). -/
theorem assignCommonAncestor_deepest_common (ts : List TreeNode) (s : String)
    (hne : ts ≠ [])
    (hpre : ∀ t ∈ ts, strStartsWith t.pathIdentity s = true) :
    assignCommonAncestorForPlan ts s =
      (match (lcpAll (ts.map
          (fun t => truncAtListChange (ancestorChain s t)))).getLast? with
       | some node => Except.ok node.pathIdentity
       | none => Except.error
           "GraphileInternalError: the root tree node should be in common with every path") := by
  obtain ⟨a, rest, rfl⟩ : ∃ a rest, ts = a :: rest := by
    cases ts with
    | nil => exact absurd rfl hne
    | cons a rest => exact ⟨a, rest, rfl⟩
  have hmm := mapM_treeNodePath (a :: rest) s hpre
  rw [List.map_cons] at hmm ⊢
  have hlhs : assignCommonAncestorForPlan (a :: rest) s =
      (match deepestCommonPathIndex (truncAtListChange (ancestorChain s a) ::
          rest.map (fun t => truncAtListChange (ancestorChain s t))) with
       | none =>
         Except.error
           "GraphileInternalError: the root tree node should be in common with every path"
       | some d =>
         match (truncAtListChange (ancestorChain s a))[d]? with
         | some node => Except.ok node.pathIdentity
         | none =>
           Except.error
             "GraphileInternalError: deepest common position out of range") := by
    rw [assignCommonAncestorForPlan, hmm]
    rfl
  rw [hlhs]
  have hlcp := lcpAll_eq_take (truncAtListChange (ancestorChain s a))
    (rest.map (fun t => truncAtListChange (ancestorChain s t)))
  obtain ⟨hc_le, _, _⟩ := takeWhile_range_spec
    (fun i => agreeAt (truncAtListChange (ancestorChain s a) ::
      rest.map (fun t => truncAtListChange (ancestorChain s t))) i)
    (truncAtListChange (ancestorChain s a)).length
  set c := ((List.range (truncAtListChange (ancestorChain s a)).length).takeWhile
    (fun i => agreeAt (truncAtListChange (ancestorChain s a) ::
      rest.map (fun t => truncAtListChange (ancestorChain s t))) i)).length
    with hcdef
  have hdci : deepestCommonPathIndex (truncAtListChange (ancestorChain s a) ::
      rest.map (fun t => truncAtListChange (ancestorChain s t))) =
      if c = 0 then none else some (c - 1) := by
    rw [deepestCommonPathIndex]
    simp only [List.headD_cons]
  rw [hdci, hlcp]
  by_cases hc0 : c = 0
  · rw [if_pos hc0, hc0, List.take_zero]
    rfl
  · rw [if_neg hc0]
    have hc1 : c - 1 < c := by omega
    have hclen : c - 1 < (truncAtListChange (ancestorChain s a)).length := by omega
    have hget : (truncAtListChange (ancestorChain s a))[c - 1]? =
        some ((truncAtListChange (ancestorChain s a))[c - 1]) :=
      List.getElem?_eq_getElem hclen
    have hlast : ((truncAtListChange (ancestorChain s a)).take c).getLast? =
        (truncAtListChange (ancestorChain s a))[c - 1]? := by
      rw [List.getLast?_eq_getElem?, List.length_take,
        Nat.min_eq_left hc_le, List.getElem?_take_of_lt hc1]
    rw [hlast]
    simp only [hget]

/-- Witness for C5 on the concrete tree: a plan created at the root and
first used both at `~>a[]>b` (below the list boundary) and at `~>a` is
assigned the common ancestor `~>a` — the deepest node shared by the
truncated paths. -/
theorem assignCommonAncestor_witness :
    ([exampleBNode, exampleANode] : List TreeNode) ≠ [] ∧
    assignCommonAncestorForPlan [exampleBNode, exampleANode] "~" =
      Except.ok "~>a" :=
  ⟨by simp,
    (assignCommonAncestor_deepest_common [exampleBNode, exampleANode] "~"
      (by simp) (by decide)).trans (by rfl)⟩

/-! #### Lemmas for `deduplicatePlans` idempotence -/

/-- `dedupCB` never decreases the replacement counter, and leaves it
unchanged exactly when it returns the plan itself. -/
theorem dedupCB_mono (streamByPid : PlanId → Bool)
    (dedupF : ExecutablePlan → List ExecutablePlan → ExecutablePlan)
    (t : PlanTable) (n : Nat) (p r : ExecutablePlan) (n2 : Nat)
    (h : Aether.dedupCB streamByPid dedupF t n p = .ok (r, n2)) :
    n ≤ n2 ∧ (n2 = n → r = p) := by
  unfold Aether.dedupCB at h
  cases hd : Aether.deduplicatePlan t streamByPid dedupF p with
  | error e => rw [hd] at h; cases h
  | ok rb =>
    rw [hd] at h
    simp only [Except.map] at h
    injection h with h
    have hr : rb.1 = r := congrArg Prod.fst h
    have hn : (if rb.1 ≠ p then n + 1 else n) = n2 := congrArg Prod.snd h
    by_cases hne : rb.1 = p
    · rw [if_neg (by rw [hne]; simp)] at hn
      exact ⟨hn.le, fun _ => hr ▸ hne⟩
    · rw [if_pos (by exact hne)] at hn
      refine ⟨by omega, fun he => absurd he (by omega)⟩

/-- Counter monotonicity and no-change-at-equal-count for the `first`
loop. -/
theorem processFirstList_count_mono
    (rec : ProcessState Nat → ExecutablePlan → Except String (ProcessState Nat))
    (hrec : ∀ st p res, rec st p = .ok res →
      st.cbState ≤ res.cbState ∧ (res.cbState = st.cbState → res.table = st.table))
    (plan : ExecutablePlan) :
    ∀ (l : List PlanId) (st : ProcessState Nat) (res : ProcessState Nat × Bool),
      processFirstList rec plan l st = .ok res →
      st.cbState ≤ res.1.cbState ∧
        (res.1.cbState = st.cbState → res.1.table = st.table) := by
  intro l
  induction l with
  | nil =>
    intro st res h
    rw [processFirstList] at h
    injection h with h
    rw [← h]
    exact ⟨Nat.le_refl _, fun _ => rfl⟩
  | cons d rest ih =>
    intro st res h
    rw [processFirstList] at h
    cases hpa : planAt st.table d with
    | none =>
      simp only [hpa] at h
      exact ih st res h
    | some depPlan =>
      simp only [hpa] at h
      by_cases hproc : depPlan ∈ st.processed
      · rw [if_pos hproc] at h
        exact ih st res h
      · rw [if_neg hproc] at h
        cases hr : rec st depPlan with
        | error e =>
          rw [hr] at h
          simp only [Bind.bind, Except.bind] at h
          cases h
        | ok st2 =>
          rw [hr] at h
          simp only [Bind.bind, Except.bind] at h
          obtain ⟨h1, h2⟩ := hrec st depPlan st2 hr
          by_cases habort : (planAt st2.table plan.pid).isNone = true
          · rw [if_pos habort] at h
            injection h with h
            rw [← h]
            exact ⟨h1, fun he => h2 he⟩
          · rw [if_neg habort] at h
            obtain ⟨h3, h4⟩ := ih st2 res h
            refine ⟨Nat.le_trans h1 h3, fun he => ?_⟩
            have hb : st2.cbState = st.cbState := by omega
            rw [h4 (by omega), h2 hb]

/-- Counter monotonicity and no-change-at-equal-count for `process`. -/
theorem processOne_count_mono
    (cb : PlanTable → Nat → ExecutablePlan → Except String (ExecutablePlan × Nat))
    (hcb : ∀ t n p r n2, cb t n p = .ok (r, n2) → n ≤ n2 ∧ (n2 = n → r = p))
    (onReplace : PlanTable → PlanTable) (o : Bool) :
    ∀ (fuel : Nat) (st : ProcessState Nat) (p : ExecutablePlan)
      (res : ProcessState Nat),
      processOne cb onReplace o fuel st p = .ok res →
      st.cbState ≤ res.cbState ∧
        (res.cbState = st.cbState → res.table = st.table) := by
  intro fuel
  induction fuel with
  | zero =>
    intro st p res h
    rw [processOne] at h
    injection h with h
    rw [← h]
    exact ⟨Nat.le_refl _, fun _ => rfl⟩
  | succ fuel ih =>
    intro st p res h
    rw [processOne] at h
    by_cases hproc : p ∈ st.processed
    · rw [if_pos hproc] at h
      injection h with h
      rw [← h]
      exact ⟨Nat.le_refl _, fun _ => rfl⟩
    · rw [if_neg hproc] at h
      cases hf : processFirstList (processOne cb onReplace o fuel) p
          (firstIds st.table o p) st with
      | error e =>
        rw [hf] at h
        simp only [Bind.bind, Except.bind] at h
        cases h
      | ok fr =>
        rw [hf] at h
        simp only [Bind.bind, Except.bind] at h
        obtain ⟨g1, g2⟩ := processFirstList_count_mono _
          (fun st2 p2 res2 hr => ih st2 p2 res2 hr) p _ st fr hf
        by_cases habort : fr.2 = true
        · rw [if_pos habort] at h
          injection h with h
          rw [← h]
          exact ⟨g1, g2⟩
        · rw [if_neg habort] at h
          cases hc : cb fr.1.table fr.1.cbState p with
          | error e =>
            rw [hc] at h
            simp only [Bind.bind, Except.bind] at h
            cases h
          | ok rs =>
            rw [hc] at h
            simp only [Bind.bind, Except.bind] at h
            obtain ⟨c1, c2⟩ := hcb _ _ _ _ _ (by rw [hc])
            by_cases hrepl : rs.1 = p
            · rw [if_neg (by simp [hrepl])] at h
              injection h with h
              rw [← h]
              refine ⟨Nat.le_trans g1 c1, fun he => ?_⟩
              simp only at he ⊢
              rw [g2 (by omega)]
            · rw [if_pos (by simp [hrepl])] at h
              injection h with h
              rw [← h]
              refine ⟨Nat.le_trans g1 c1, fun he => ?_⟩
              simp only at he
              exact absurd (c2 (by omega)) hrepl

/-- Counter monotonicity and no-change-at-equal-count for the whole
pass. -/
theorem processPlans_count_mono
    (cb : PlanTable → Nat → ExecutablePlan → Except String (ExecutablePlan × Nat))
    (hcb : ∀ t n p r n2, cb t n p = .ok (r, n2) → n ≤ n2 ∧ (n2 = n → r = p))
    (onReplace : PlanTable → PlanTable) (o : Bool) (fuel : Nat) :
    ∀ (ids : List PlanId) (st : ProcessState Nat) (res : ProcessState Nat),
      (ids.foldlM (fun st2 i =>
        match planAt st2.table i with
        | none => pure st2
        | some p => processOne cb onReplace o fuel st2 p) st) = .ok res →
      st.cbState ≤ res.cbState ∧
        (res.cbState = st.cbState → res.table = st.table) := by
  intro ids
  induction ids with
  | nil =>
    intro st res h
    rw [List.foldlM] at h
    injection h with h
    rw [← h]
    exact ⟨Nat.le_refl _, fun _ => rfl⟩
  | cons i ids ih =>
    intro st res h
    rw [List.foldlM_cons] at h
    cases hpa : planAt st.table i with
    | none =>
      simp only [hpa, pure, Bind.bind, Except.bind, Except.pure] at h
      exact ih st res h
    | some p =>
      simp only [hpa] at h
      cases hp1 : processOne cb onReplace o fuel st p with
      | error e =>
        rw [hp1] at h
        simp only [Bind.bind, Except.bind] at h
        cases h
      | ok st2 =>
        rw [hp1] at h
        simp only [Bind.bind, Except.bind] at h
        obtain ⟨h1, h2⟩ := processOne_count_mono cb hcb onReplace o fuel st p st2 hp1
        obtain ⟨h3, h4⟩ := ih st2 res h
        refine ⟨Nat.le_trans h1 h3, fun he => ?_⟩
        rw [h4 (by omega), h2 (by omega)]

/-- C3: the deduplication pass is idempotent.  Whenever a run of the pass
reports zero replacements it has left the plan table unchanged, and running
the pass again reports zero replacements on the unchanged table; moreover
the table on which the `deduplicatePlans` fixpoint loop stops is such a
fixpoint: one further pass makes zero replacements and leaves it
untouched. -/
theorem dedupPass_idempotent (streamByPid : PlanId → Bool)
    (dedupF : ExecutablePlan → List ExecutablePlan → ExecutablePlan)
    (fuel : Nat) :
    (∀ t t2, Aether.dedupPass streamByPid dedupF fuel t = .ok (t2, 0) →
      t2 = t ∧ Aether.dedupPass streamByPid dedupF fuel t2 = .ok (t2, 0)) ∧
    (∀ loops t tstar,
      Aether.deduplicatePlans streamByPid dedupF fuel loops t = .ok tstar →
      Aether.dedupPass streamByPid dedupF fuel tstar = .ok (tstar, 0)) := by
  have hcb := dedupCB_mono streamByPid dedupF
  have hpass : ∀ t t2, Aether.dedupPass streamByPid dedupF fuel t = .ok (t2, 0) →
      t2 = t ∧ Aether.dedupPass streamByPid dedupF fuel t2 = .ok (t2, 0) := by
    intro t t2 h
    unfold Aether.dedupPass at h
    cases hp : processPlans (Aether.dedupCB streamByPid dedupF) id false fuel t 0 with
    | error e => rw [hp] at h; cases h
    | ok st' =>
      rw [hp] at h
      simp only [Except.map] at h
      injection h with h
      have htab : st'.table = t2 := congrArg Prod.fst h
      have hcount : st'.cbState = 0 := congrArg Prod.snd h
      have := processPlans_count_mono (Aether.dedupCB streamByPid dedupF)
        (fun t3 n p r n2 hh => hcb t3 n p r n2 hh) id false fuel
        (List.range t.length) ⟨t, [], 0⟩ st' hp
      have ht2 : t2 = t := by
        rw [← htab]
        exact this.2 (by rw [hcount])
      subst ht2
      constructor
      · rfl
      · unfold Aether.dedupPass
        rw [hp]
        simp only [Except.map]
        rw [h]
  refine ⟨hpass, ?_⟩
  intro loops
  induction loops with
  | zero =>
    intro t tstar h
    rw [Aether.deduplicatePlans] at h
    cases h
  | succ loops ih =>
    intro t tstar h
    rw [Aether.deduplicatePlans] at h
    cases hp : Aether.dedupPass streamByPid dedupF fuel t with
    | error e =>
      rw [hp] at h
      simp only [Bind.bind, Except.bind] at h
      cases h
    | ok r =>
      rw [hp] at h
      simp only [Bind.bind, Except.bind] at h
      by_cases hpos : r.2 > 0
      · rw [if_pos hpos] at h
        exact ih r.1 tstar h
      · rw [if_neg hpos] at h
        injection h with h
        have hr2 : r.2 = 0 := by omega
        have hr : Aether.dedupPass streamByPid dedupF fuel t = .ok (r.1, 0) := by
          rw [hp, ← hr2]
        obtain ⟨hfix1, hfix2⟩ := hpass t r.1 hr
        rw [← h]
        exact hfix2

/-- Witness for C3 at a concrete two-plan table on which the pass makes no
replacement: the table is unchanged and a second pass still reports zero
replacements. -/
theorem dedupPass_idempotent_witness :
    exampleDedupTable = exampleDedupTable ∧
    Aether.dedupPass (fun _ => false) (fun p _ => p) 3 exampleDedupTable =
      .ok (exampleDedupTable, 0) :=
  (dedupPass_idempotent (fun _ => false) (fun p _ => p) 3).1
    exampleDedupTable exampleDedupTable (by rfl)

/-! #### Lemmas for the optimize pass -/

/-- The invariant of the optimize pass: the processed set and the
`optimizedPlans` set coincide (they are updated in the same step), the
processed set has no duplicates, and the invocation log is exactly the
processed set in processing order. -/
def OptInv (st : ProcessState OptState) : Prop :=
  st.processed = st.cbState.optimizedPlans ∧ st.processed.Nodup ∧
    st.cbState.calls = st.processed.reverse

/-- Invariant preservation, processed-set growth, table staticity (when
`optimize` never replaces), and abort accounting for the `first` loop of
the optimize pass. -/
theorem optFirstList (F : ExecutablePlan → ExecutablePlan)
    (onR : PlanTable → PlanTable) (fuel : Nat)
    (hrec : ∀ st p st2, OptInv st →
      processOne (fun _ s q => Aether.optimizePlan F s q) onR true fuel st p = .ok st2 →
      OptInv st2 ∧ (∃ new, st2.processed = new ++ st.processed) ∧
        ((∀ q, F q = q) → st2.table = st.table)) :
    ∀ (l : List PlanId) (plan : ExecutablePlan) (st : ProcessState OptState)
      (fr : ProcessState OptState × Bool), OptInv st →
      processFirstList (processOne (fun _ s q => Aether.optimizePlan F s q) onR true fuel)
          plan l st = .ok fr →
      OptInv fr.1 ∧ (∃ new, fr.1.processed = new ++ st.processed) ∧
        ((∀ q, F q = q) → fr.1.table = st.table ∧
          (fr.2 = true → (planAt st.table plan.pid).isNone = true)) := by
  intro l
  induction l with
  | nil =>
    intro plan st fr hinv h
    rw [processFirstList] at h
    injection h with h
    rw [← h]
    exact ⟨hinv, ⟨[], rfl⟩, fun _ => ⟨rfl, by simp⟩⟩
  | cons d rest ih =>
    intro plan st fr hinv h
    rw [processFirstList] at h
    cases hpa : planAt st.table d with
    | none =>
      simp only [hpa] at h
      exact ih plan st fr hinv h
    | some depPlan =>
      simp only [hpa] at h
      by_cases hproc : depPlan ∈ st.processed
      · rw [if_pos hproc] at h
        exact ih plan st fr hinv h
      · rw [if_neg hproc] at h
        cases hr : processOne (fun _ s q => Aether.optimizePlan F s q) onR true fuel
            st depPlan with
        | error e =>
          rw [hr] at h
          simp only [Bind.bind, Except.bind] at h
          cases h
        | ok st2 =>
          rw [hr] at h
          simp only [Bind.bind, Except.bind] at h
          obtain ⟨hinv2, ⟨new1, hnew1⟩, hstat1⟩ := hrec st depPlan st2 hinv hr
          by_cases habort : (planAt st2.table plan.pid).isNone = true
          · rw [if_pos habort] at h
            injection h with h
            rw [← h]
            refine ⟨hinv2, ⟨new1, hnew1⟩, fun hnr => ⟨hstat1 hnr, fun _ => ?_⟩⟩
            rw [← hstat1 hnr]
            exact habort
          · rw [if_neg habort] at h
            obtain ⟨hinv3, ⟨new2, hnew2⟩, hstat2⟩ := ih plan st2 fr hinv2 h
            refine ⟨hinv3, ⟨new2 ++ new1, by rw [hnew2, hnew1, List.append_assoc]⟩,
              fun hnr => ?_⟩
            obtain ⟨ht2, hab2⟩ := hstat2 hnr
            refine ⟨by rw [ht2, hstat1 hnr], fun hf => ?_⟩
            rw [← hstat1 hnr]
            exact hab2 hf

/-- Invariant preservation, processed-set growth and table staticity for
one `process` call of the optimize pass. -/
theorem optProcessOne (F : ExecutablePlan → ExecutablePlan)
    (onR : PlanTable → PlanTable) :
    ∀ (fuel : Nat) (st : ProcessState OptState) (p : ExecutablePlan)
      (st2 : ProcessState OptState), OptInv st →
      processOne (fun _ s q => Aether.optimizePlan F s q) onR true fuel st p = .ok st2 →
      OptInv st2 ∧ (∃ new, st2.processed = new ++ st.processed) ∧
        ((∀ q, F q = q) → st2.table = st.table) := by
  intro fuel
  induction fuel with
  | zero =>
    intro st p st2 hinv h
    rw [processOne] at h
    injection h with h
    rw [← h]
    exact ⟨hinv, ⟨[], rfl⟩, fun _ => rfl⟩
  | succ fuel ih =>
    intro st p st2 hinv h
    rw [processOne] at h
    by_cases hproc : p ∈ st.processed
    · rw [if_pos hproc] at h
      injection h with h
      rw [← h]
      exact ⟨hinv, ⟨[], rfl⟩, fun _ => rfl⟩
    · rw [if_neg hproc] at h
      cases hf : processFirstList
          (processOne (fun _ s q => Aether.optimizePlan F s q) onR true fuel) p
          (firstIds st.table true p) st with
      | error e =>
        rw [hf] at h
        simp only [Bind.bind, Except.bind] at h
        cases h
      | ok fr =>
        rw [hf] at h
        simp only [Bind.bind, Except.bind] at h
        obtain ⟨hinv1, ⟨new1, hnew1⟩, hstat1⟩ := optFirstList F onR fuel
          (fun st3 p3 st4 hinv3 h3 => ih st3 p3 st4 hinv3 h3) _ p st fr hinv hf
        by_cases habort : fr.2 = true
        · rw [if_pos habort] at h
          injection h with h
          rw [← h]
          exact ⟨hinv1, ⟨new1, hnew1⟩, fun hnr => (hstat1 hnr).1⟩
        · rw [if_neg habort] at h
          cases hc : Aether.optimizePlan F fr.1.cbState p with
          | error e =>
            rw [hc] at h
            simp only [Bind.bind, Except.bind] at h
            cases h
          | ok rs =>
            rw [hc] at h
            simp only [Bind.bind, Except.bind] at h
            -- unpack the successful optimizePlan call
            rw [Aether.optimizePlan] at hc
            by_cases hopt : p ∈ fr.1.cbState.optimizedPlans
            · rw [if_pos hopt] at hc
              cases hc
            · rw [if_neg hopt] at hc
              injection hc with hc
              have hrs1 : rs.1 = F p := by rw [← hc]
              have hrs2o : rs.2.optimizedPlans = p :: fr.1.cbState.optimizedPlans := by
                rw [← hc]
              have hrs2c : rs.2.calls = fr.1.cbState.calls ++ [p] := by
                rw [← hc]
              obtain ⟨i1, i2, i3⟩ := hinv1
              have hP1 : p :: fr.1.processed = rs.2.optimizedPlans := by
                rw [hrs2o, i1]
              have hP2 : (p :: fr.1.processed).Nodup :=
                List.nodup_cons.mpr ⟨by rw [i1]; exact hopt, i2⟩
              have hP3 : rs.2.calls = (p :: fr.1.processed).reverse := by
                rw [hrs2c, i3, List.reverse_cons]
              by_cases hrepl : rs.1 = p
              · rw [if_neg (by simp [hrepl])] at h
                injection h with h
                rw [← h]
                exact ⟨⟨hP1, hP2, hP3⟩, ⟨p :: new1, by simp [hnew1]⟩,
                  fun hnr => (hstat1 hnr).1⟩
              · rw [if_pos (by simp [hrepl])] at h
                injection h with h
                rw [← h]
                exact ⟨⟨hP1, hP2, hP3⟩, ⟨p :: new1, by simp [hnew1]⟩,
                  fun hnr => absurd (hrs1.trans (hnr p)) hrepl⟩

/-- When `optimize` replaces nothing, a successful `process` call on a plan
whose own slot is live ends with that plan processed. -/
theorem optProcessOne_processes (F : ExecutablePlan → ExecutablePlan)
    (onR : PlanTable → PlanTable) (fuel : Nat) (st : ProcessState OptState)
    (p : ExecutablePlan) (st2 : ProcessState OptState)
    (hinv : OptInv st) (hnr : ∀ q, F q = q) (hfuel : 1 ≤ fuel)
    (hsome : (planAt st.table p.pid).isSome = true)
    (h : processOne (fun _ s q => Aether.optimizePlan F s q) onR true fuel st p
      = .ok st2) :
    p ∈ st2.processed := by
  cases fuel with
  | zero => omega
  | succ fuel =>
    rw [processOne] at h
    by_cases hproc : p ∈ st.processed
    · rw [if_pos hproc] at h
      injection h with h
      rw [← h]
      exact hproc
    · rw [if_neg hproc] at h
      cases hf : processFirstList
          (processOne (fun _ s q => Aether.optimizePlan F s q) onR true fuel) p
          (firstIds st.table true p) st with
      | error e =>
        rw [hf] at h
        simp only [Bind.bind, Except.bind] at h
        cases h
      | ok fr =>
        rw [hf] at h
        simp only [Bind.bind, Except.bind] at h
        obtain ⟨hinv1, _, hstat1⟩ := optFirstList F onR fuel
          (fun st3 p3 st4 hinv3 h3 => optProcessOne F onR fuel st3 p3 st4 hinv3 h3)
          _ p st fr hinv hf
        have hfr2 : ¬ fr.2 = true := by
          intro hcon
          have hnone := (hstat1 hnr).2 hcon
          rw [Option.isNone_iff_eq_none] at hnone
          rw [hnone] at hsome
          cases hsome
        rw [if_neg hfr2] at h
        cases hc : Aether.optimizePlan F fr.1.cbState p with
        | error e =>
          rw [hc] at h
          simp only [Bind.bind, Except.bind] at h
          cases h
        | ok rs =>
          rw [hc] at h
          simp only [Bind.bind, Except.bind] at h
          by_cases hrepl : rs.1 = p
          · rw [if_neg (by simp [hrepl])] at h
            injection h with h
            rw [← h]
            exact List.mem_cons_self _ _
          · rw [if_pos (by simp [hrepl])] at h
            injection h with h
            rw [← h]
            exact List.mem_cons_self _ _

/-- The whole-pass lemma for `optimizePlans`: invariants, staticity, and —
when `optimize` replaces nothing — completeness: every id of the walked
list whose plan is live (and whose own slot resolves) ends processed. -/
theorem optFold (F : ExecutablePlan → ExecutablePlan)
    (onR : PlanTable → PlanTable) (fuel : Nat) :
    ∀ (ids : List PlanId) (st res : ProcessState OptState), OptInv st →
      (ids.foldlM (fun st2 i =>
        match planAt st2.table i with
        | none => pure st2
        | some p => processOne (fun _ s q => Aether.optimizePlan F s q) onR true
            fuel st2 p) st) = .ok res →
      OptInv res ∧ (∃ new, res.processed = new ++ st.processed) ∧
        ((∀ q, F q = q) → res.table = st.table) ∧
        ((∀ q, F q = q) → 1 ≤ fuel → ∀ i ∈ ids, ∀ p, planAt st.table i = some p →
          (planAt st.table p.pid).isSome = true → p ∈ res.processed) := by
  intro ids
  induction ids with
  | nil =>
    intro st res hinv h
    rw [List.foldlM] at h
    injection h with h
    rw [← h]
    exact ⟨hinv, ⟨[], rfl⟩, fun _ => rfl, fun _ _ i hi => absurd hi (List.not_mem_nil i)⟩
  | cons i ids ih =>
    intro st res hinv h
    rw [List.foldlM_cons] at h
    cases hpa : planAt st.table i with
    | none =>
      simp only [hpa, pure, Bind.bind, Except.bind, Except.pure] at h
      obtain ⟨r1, r2, r3, r4⟩ := ih st res hinv h
      refine ⟨r1, r2, r3, fun hnr hfuel j hj p hp hs => ?_⟩
      rcases List.mem_cons.mp hj with rfl | hjin
      · rw [hpa] at hp
        cases hp
      · exact r4 hnr hfuel j hjin p hp hs
    | some p =>
      simp only [hpa] at h
      cases hp1 : processOne (fun _ s q => Aether.optimizePlan F s q) onR true
          fuel st p with
      | error e =>
        rw [hp1] at h
        simp only [Bind.bind, Except.bind] at h
        cases h
      | ok st1 =>
        rw [hp1] at h
        simp only [Bind.bind, Except.bind] at h
        obtain ⟨hinv1, ⟨new1, hnew1⟩, hstat1⟩ := optProcessOne F onR fuel st p st1 hinv hp1
        obtain ⟨r1, ⟨new2, hnew2⟩, r3, r4⟩ := ih st1 res hinv1 h
        refine ⟨r1, ⟨new2 ++ new1, by rw [hnew2, hnew1, List.append_assoc]⟩,
          fun hnr => by rw [r3 hnr, hstat1 hnr], fun hnr hfuel j hj q hq hs => ?_⟩
        rcases List.mem_cons.mp hj with rfl | hjin
        · rw [hpa] at hq
          injection hq with hq
          subst hq
          have hmem1 := optProcessOne_processes F onR fuel st p st1 hinv hnr hfuel hs hp1
          rw [hnew2]
          exact List.mem_append_right _ hmem1
        · have hq1 : planAt st1.table j = some q := by rw [hstat1 hnr]; exact hq
          have hs1 : (planAt st1.table q.pid).isSome = true := by
            rw [hstat1 hnr]; exact hs
          exact r4 hnr hfuel j hjin q hq1 hs1

/-- C8: the plan optimizer runs each plan's `optimize` once.
Calling `optimizePlan` on an already-optimized plan throws the
double-optimization error before invoking the plan's `optimize` method.
In any successful `optimizePlans` pass the invocation log is exactly the
processed plans — each distinct plan at most once (the log is
duplicate-free); and when no `optimize` call returns a replacement, every
live plan of the table (whose own slot resolves) appears in the log, i.e.
its `optimize` was invoked exactly once. -/
theorem optimizePlans_exactly_once (F : ExecutablePlan → ExecutablePlan)
    (onR : PlanTable → PlanTable) (fuel : Nat) (t : PlanTable) :
    (∀ (st : OptState) (p : ExecutablePlan), p ∈ st.optimizedPlans →
      Aether.optimizePlan F st p = .error "Must not optimize plan twice") ∧
    (∀ st2, Aether.optimizePlans F onR fuel t = .ok st2 →
      st2.cbState.calls = st2.processed.reverse ∧ st2.processed.Nodup) ∧
    (∀ st2, Aether.optimizePlans F onR fuel t = .ok st2 →
      (∀ q, F q = q) → 1 ≤ fuel →
      ∀ i p, planAt t i = some p → (planAt t p.pid).isSome = true →
        p ∈ st2.cbState.calls) := by
  refine ⟨?_, ?_, ?_⟩
  · intro st p hmem
    rw [Aether.optimizePlan, if_pos hmem]
  · intro st2 h
    obtain ⟨⟨_, hnd, hcalls⟩, _, _, _⟩ := optFold F onR fuel (List.range t.length)
      ⟨t, [], ⟨[], []⟩⟩ st2 ⟨rfl, List.nodup_nil, rfl⟩ h
    exact ⟨hcalls, hnd⟩
  · intro st2 h hnr hfuel i p hp hs
    obtain ⟨⟨_, _, hcalls⟩, _, _, r4⟩ := optFold F onR fuel (List.range t.length)
      ⟨t, [], ⟨[], []⟩⟩ st2 ⟨rfl, List.nodup_nil, rfl⟩ h
    have hi : i ∈ List.range t.length := by
      rw [List.mem_range]
      by_contra hge
      rw [planAt, List.get?_eq_getElem?, List.getElem?_eq_none (by omega)] at hp
      cases hp
    have hmem := r4 hnr hfuel i hi p hp hs
    rw [hcalls, List.mem_reverse]
    exact hmem

/-- Witness for C8 at a concrete two-plan table: re-optimizing an already
optimized plan throws, and an identity-optimize pass logs both live plans'
`optimize` invocations. -/
theorem optimizePlans_exactly_once_witness :
    Aether.optimizePlan (fun p => p) ⟨[examplePlanP0], []⟩ examplePlanP0 =
      .error "Must not optimize plan twice" ∧
    examplePlanP0 ∈ (⟨exampleDedupTable, [examplePlanP1, examplePlanP0],
      ⟨[examplePlanP1, examplePlanP0], [examplePlanP0, examplePlanP1]⟩⟩ :
        ProcessState OptState).cbState.calls := by
  constructor
  · exact (optimizePlans_exactly_once (fun p => p) id 1 exampleDedupTable).1
      ⟨[examplePlanP0], []⟩ examplePlanP0 (List.mem_singleton.mpr rfl)
  · exact (optimizePlans_exactly_once (fun p => p) id 1 exampleDedupTable).2.2
      _ (by rfl) (fun q => rfl) (by omega) 0 examplePlanP0 (by rfl) (by rfl)

/-! #### Lemmas for the `executePlanOld` model -/

/-- The invariant-carrying induction for `executePlanOld`'s loop: the
in-flight map always consists of the initial in-flight entries plus one
entry per queued bucket (resolving to that bucket's pending value), queued
buckets are distinct and were neither cached nor initially in flight, and
every parent's result is determined by the initial state alone. -/
theorem executePlanOldGo {B V : Type} [DecidableEq B]
    (cache inflight : List (B × V)) (execV : B → V) :
    ∀ (ps : List (PRInput B V)) (acc : OldAcc B V),
      (∀ b, alookup acc.inflight b =
        if b ∈ acc.pending then some (execV b) else alookup inflight b) →
      (∀ b ∈ acc.pending, alookup cache b = none ∧ alookup inflight b = none) →
      acc.pending.Nodup →
      (ps.foldl (executePlanOldStep cache execV) acc).results =
          acc.results ++ ps.map (oldResultOf cache inflight execV) ∧
        (ps.foldl (executePlanOldStep cache execV) acc).pending.Nodup ∧
        (∀ b ∈ (ps.foldl (executePlanOldStep cache execV) acc).pending,
          alookup cache b = none ∧ alookup inflight b = none) ∧
        (∀ b, alookup (ps.foldl (executePlanOldStep cache execV) acc).inflight b =
          if b ∈ (ps.foldl (executePlanOldStep cache execV) acc).pending
          then some (execV b) else alookup inflight b) := by
  intro ps
  induction ps with
  | nil =>
    intro acc h1 h2 h3
    exact ⟨by simp, h3, h2, h1⟩
  | cons p ps ih =>
    intro acc h1 h2 h3
    rw [List.foldl_cons]
    cases p with
    | dead v =>
      simp only [executePlanOldStep]
      obtain ⟨r1, r2, r3, r4⟩ :=
        ih { acc with results := acc.results ++ [v] } h1 h2 h3
      refine ⟨?_, r2, r3, r4⟩
      rw [r1]
      simp [oldResultOf]
    | live b =>
      cases hc : alookup cache b with
      | some v =>
        simp only [executePlanOldStep, hc]
        obtain ⟨r1, r2, r3, r4⟩ :=
          ih { acc with results := acc.results ++ [v] } h1 h2 h3
        refine ⟨?_, r2, r3, r4⟩
        rw [r1]
        simp [oldResultOf, hc]
      | none =>
        cases hf : alookup acc.inflight b with
        | some w =>
          simp only [executePlanOldStep, hc, hf]
          obtain ⟨r1, r2, r3, r4⟩ :=
            ih { acc with results := acc.results ++ [w] } h1 h2 h3
          refine ⟨?_, r2, r3, r4⟩
          rw [r1]
          have hw : oldResultOf cache inflight execV (.live b) = w := by
            simp only [oldResultOf]
            rw [hc]
            by_cases hb : b ∈ acc.pending
            · rw [(h2 b hb).2]
              have hh := h1 b
              rw [if_pos hb, hf] at hh
              exact (Option.some.inj hh).symm
            · have hh := h1 b
              rw [if_neg hb, hf] at hh
              rw [← hh]
          simp only [List.map_cons, hw]
          simp
        | none =>
          have hbnotp : b ∉ acc.pending := by
            intro hb
            have hh := h1 b
            rw [if_pos hb, hf] at hh
            cases hh
          have hinfl : alookup inflight b = none := by
            have hh := h1 b
            rw [if_neg hbnotp, hf] at hh
            exact hh.symm
          simp only [executePlanOldStep, hc, hf]
          have h1' : ∀ b2, alookup ((b, execV b) :: acc.inflight) b2 =
              if b2 ∈ acc.pending ++ [b] then some (execV b2)
              else alookup inflight b2 := by
            intro b2
            by_cases hbb : b2 = b
            · subst hbb
              simp [alookup]
            · have hmem : (b2 ∈ acc.pending ++ [b]) ↔ b2 ∈ acc.pending := by
                simp [hbb]
              rw [alookup, if_neg hbb]
              rcases Decidable.em (b2 ∈ acc.pending) with hin | hout
              · rw [h1 b2, if_pos hin, if_pos (hmem.mpr hin)]
              · rw [h1 b2, if_neg hout, if_neg (fun hcon => hout (hmem.mp hcon))]
          have h2' : ∀ b2 ∈ acc.pending ++ [b],
              alookup cache b2 = none ∧ alookup inflight b2 = none := by
            intro b2 hb2
            rcases List.mem_append.mp hb2 with hin | hsing
            · exact h2 b2 hin
            · rw [List.mem_singleton.mp hsing]
              exact ⟨hc, hinfl⟩
          have h3' : (acc.pending ++ [b]).Nodup := by
            rw [List.nodup_append]
            exact ⟨h3, List.nodup_singleton b,
              by simpa [List.disjoint_singleton] using hbnotp⟩
          obtain ⟨r1, r2, r3, r4⟩ := ih
            { results := acc.results ++ [execV b], pending := acc.pending ++ [b],
              inflight := (b, execV b) :: acc.inflight } h1' h2' h3'
          refine ⟨?_, r2, r3, r4⟩
          rw [r1]
          have hval : oldResultOf cache inflight execV (.live b) = execV b := by
            simp only [oldResultOf]
            rw [hc, hinfl]
          simp only [List.map_cons, hval]
          simp

/-- C1: for a fixed plan, over one drain of a batch by `executePlanOld`:
every parent's result is a function of the plan's initial bucket store and
in-flight map alone, so all parents sharing a bucket at the plan's
common-ancestor path identity observe the same result value; the buckets
queued for execution are pairwise distinct and exclude every bucket that is
already cached or already in flight — so `execute` (via
`executePlanPending`) is started at most once per (plan, bucket), and a
caller arriving while a bucket is in flight is joined onto the in-flight
computation's value instead of re-running it. -/
theorem executePlanOld_at_most_once_per_bucket {B V : Type} [DecidableEq B]
    (cache inflight : List (B × V)) (execV : B → V)
    (parents : List (PRInput B V)) :
    ((executePlanOldRun cache inflight execV parents).results =
        parents.map (oldResultOf cache inflight execV)) ∧
    (∀ (i j : Nat) (b : B), parents[i]? = some (.live b) →
      parents[j]? = some (.live b) →
      (executePlanOldRun cache inflight execV parents).results[i]? =
        (executePlanOldRun cache inflight execV parents).results[j]?) ∧
    (executePlanOldRun cache inflight execV parents).pending.Nodup ∧
    (∀ b ∈ (executePlanOldRun cache inflight execV parents).pending,
      alookup cache b = none ∧ alookup inflight b = none) ∧
    (∀ (i : Nat) (b : B) (w : V), parents[i]? = some (.live b) →
      alookup cache b = none → alookup inflight b = some w →
      (executePlanOldRun cache inflight execV parents).results[i]? = some w) := by
  have hinit := executePlanOldGo cache inflight execV parents ⟨[], [], inflight⟩
    (by intro b; simp) (by intro b hb; cases hb) List.nodup_nil
  obtain ⟨r1, r2, r3, r4⟩ := hinit
  have hres : (executePlanOldRun cache inflight execV parents).results =
      parents.map (oldResultOf cache inflight execV) := by
    rw [executePlanOldRun, r1]
    simp
  refine ⟨hres, ?_, r2, r3, ?_⟩
  · intro i j b hi hj
    rw [hres, List.getElem?_map, List.getElem?_map, hi, hj]
  · intro i b w hi hc hf
    rw [hres, List.getElem?_map, hi]
    show some (oldResultOf cache inflight execV (.live b)) = some w
    simp only [oldResultOf]
    rw [hc, hf]

/-- Witness for C1 at a concrete batch: parents 0 and 2 share bucket 3 and
observe the identical result; bucket 3 is queued exactly once; bucket 5 is
already cached and bucket 7 already in flight, so neither is queued, and the
caller of bucket 7 observes the in-flight computation's value 70. -/
theorem executePlanOld_witness :
    ((executePlanOldRun [(5, 50)] [(7, 70)] (fun b => b * 10)
        [.live 3, .dead 99, .live 3, .live 5, .live 7]).results[0]? =
      (executePlanOldRun [(5, 50)] [(7, 70)] (fun b => b * 10)
        [.live 3, .dead 99, .live 3, .live 5, .live 7]).results[2]?) ∧
    (executePlanOldRun [(5, 50)] [(7, 70)] (fun b => b * 10)
        [.live 3, .dead 99, .live 3, .live 5, .live 7]).pending.Nodup ∧
    ((executePlanOldRun [(5, 50)] [(7, 70)] (fun b => b * 10)
        [.live 3, .dead 99, .live 3, .live 5, .live 7]).results[4]? = some 70) :=
  ⟨(executePlanOld_at_most_once_per_bucket [(5, 50)] [(7, 70)] (fun b => b * 10)
      [.live 3, .dead 99, .live 3, .live 5, .live 7]).2.1 0 2 3 (by decide) (by decide),
    (executePlanOld_at_most_once_per_bucket [(5, 50)] [(7, 70)] (fun b => b * 10)
      [.live 3, .dead 99, .live 3, .live 5, .live 7]).2.2.1,
    (executePlanOld_at_most_once_per_bucket [(5, 50)] [(7, 70)] (fun b => b * 10)
      [.live 3, .dead 99, .live 3, .live 5, .live 7]).2.2.2.2 4 7 70
      (by decide) (by decide) (by decide)⟩

/-- Witness for C6 at a concrete batch of three parents with one dependency:
the parent whose dependency errored observes that very error value, and a
healthy parent whose execute entry rejected observes the caught, wrapped
rejection; both are recorded as bucket writes. -/
theorem executePlanPending_witness :
    (((executePlanPendingModel 3 exampleDeps exampleExecF).1)[1]? =
        some (CVal.cerr "boom") ∧
      (1, CVal.cerr "boom") ∈ (executePlanPendingModel 3 exampleDeps exampleExecF).2.1) ∧
    (((executePlanPendingModel 3 exampleDeps exampleExecF).1)[2]? =
        some (cvalOfExec (.error "reject")) ∧
      (2, cvalOfExec (.error "reject")) ∈
        (executePlanPendingModel 3 exampleDeps exampleExecF).2.1) :=
  ⟨(executePlanPending_error_isolation 3 exampleDeps exampleExecF
      (by decide)).2.1 1 "boom" (by decide) (by decide),
    (executePlanPending_error_isolation 3 exampleDeps exampleExecF
      (by decide)).2.2 1 2 (.error "reject") (by decide) (by rfl)⟩

/-! #### Lemmas for the tree-shaking model -/

/-- A plan some id resolves to is an entry of the table. -/
theorem planAt_mem (t : PlanTable) (i : PlanId) (p : ExecutablePlan)
    (h : planAt t i = some p) : some p ∈ t := by
  unfold planAt at h
  cases hg : t.get? i with
  | none => rw [hg] at h; simp at h
  | some o =>
    rw [hg] at h
    cases o with
    | none => simp at h
    | some q =>
      have h2 : some q = some p := h
      injection h2 with h2
      subst h2
      exact List.get?_mem hg

/-- `markPlanActive` only ever grows the active set. -/
theorem markPlanActive_mono (t : PlanTable) :
    ∀ (fuel : Nat) (p : ExecutablePlan) (active : List ExecutablePlan),
      active ⊆ markPlanActive t fuel p active := by
  intro fuel
  induction fuel with
  | zero => intro p active x hx; simpa only [markPlanActive] using hx
  | succ fuel ih =>
    have hfold : ∀ (ds : List PlanId) (W : List ExecutablePlan),
        W ⊆ ds.foldl (fun acc d =>
          match planAt t d with
          | none => acc
          | some q => markPlanActive t fuel q acc) W := by
      intro ds
      induction ds with
      | nil => intro W x hx; exact hx
      | cons d ds ihd =>
        intro W x hx
        simp only [List.foldl_cons]
        apply ihd
        cases hpd : planAt t d with
        | none => simp only [hpd]; exact hx
        | some q => simp only [hpd]; exact ih q W hx
    intro p active x hx
    simp only [markPlanActive]
    by_cases hp : p ∈ active
    · rw [if_pos hp]; exact hx
    · rw [if_neg hp]
      exact hfold p.dependencies (p :: active) (List.mem_cons_of_mem _ hx)

/-- Membership survives the dependency fold inside `markPlanActive`. -/
theorem markFold_mono (t : PlanTable) (fuel : Nat) (ds : List PlanId) :
    ∀ (W : List ExecutablePlan),
      W ⊆ ds.foldl (fun acc d =>
        match planAt t d with
        | none => acc
        | some q => markPlanActive t fuel q acc) W := by
  induction ds with
  | nil => intro W x hx; exact hx
  | cons d ds ihd =>
    intro W x hx
    simp only [List.foldl_cons]
    apply ihd
    cases hpd : planAt t d with
    | none => simp only [hpd]; exact hx
    | some q => simp only [hpd]; exact markPlanActive_mono t fuel q W hx

/-- With a successor's worth of fuel the marked plan itself is in the
resulting set. -/
theorem markPlanActive_self (t : PlanTable) (fuel : Nat) (p : ExecutablePlan)
    (active : List ExecutablePlan) :
    p ∈ markPlanActive t (fuel + 1) p active := by
  simp only [markPlanActive]
  by_cases hp : p ∈ active
  · rw [if_pos hp]; exact hp
  · rw [if_neg hp]
    exact markFold_mono t fuel p.dependencies (p :: active)
      (List.mem_cons_self p active)

/-- Any dependency of the marked plan that resolves lands in the set the
dependency fold produces. -/
theorem markFold_resolves (t : PlanTable) (f : Nat) (ds : List PlanId) :
    ∀ (W : List ExecutablePlan) (d : PlanId) (c : ExecutablePlan),
      d ∈ ds → planAt t d = some c →
      c ∈ ds.foldl (fun acc d2 =>
        match planAt t d2 with
        | none => acc
        | some q => markPlanActive t (f + 1) q acc) W := by
  induction ds with
  | nil => intro W d c hd; exact absurd hd (List.not_mem_nil d)
  | cons d0 ds ihd =>
    intro W d c hd hpc
    simp only [List.foldl_cons]
    rcases List.mem_cons.mp hd with rfl | hd2
    · simp only [hpc]
      exact markFold_mono t (f + 1) ds (markPlanActive t (f + 1) c W)
        (markPlanActive_self t f c W)
    · cases hpd : planAt t d0 with
      | none => simp only [hpd]; exact ihd W d c hd2 hpc
      | some q => simp only [hpd]; exact ihd _ d c hd2 hpc

/-- Everything `markPlanActive` adds to the set is reachable from the
marked plan along dependency edges. -/
theorem markPlanActive_sound (t : PlanTable) :
    ∀ (fuel : Nat) (p : ExecutablePlan) (active : List ExecutablePlan)
      (x : ExecutablePlan),
      x ∈ markPlanActive t fuel p active → x ∈ active ∨ Reaches t p x := by
  intro fuel
  induction fuel with
  | zero =>
    intro p active x hx
    simp only [markPlanActive] at hx
    exact .inl hx
  | succ fuel ih =>
    have hfold : ∀ (ds : List PlanId) (W : List ExecutablePlan)
        (x : ExecutablePlan),
        x ∈ ds.foldl (fun acc d =>
          match planAt t d with
          | none => acc
          | some q => markPlanActive t fuel q acc) W →
        x ∈ W ∨ ∃ d ∈ ds, ∃ q, planAt t d = some q ∧ Reaches t q x := by
      intro ds
      induction ds with
      | nil => intro W x hx; exact .inl hx
      | cons d ds ihd =>
        intro W x hx
        simp only [List.foldl_cons] at hx
        rcases ihd _ x hx with hW | ⟨d2, hd2, q, hq, hr⟩
        · cases hpd : planAt t d with
          | none => simp only [hpd] at hW; exact .inl hW
          | some q =>
            simp only [hpd] at hW
            rcases ih q W x hW with h | h
            · exact .inl h
            · exact .inr ⟨d, List.mem_cons_self d ds, q, hpd, h⟩
        · exact .inr ⟨d2, List.mem_cons_of_mem d hd2, q, hq, hr⟩
    intro p active x hx
    simp only [markPlanActive] at hx
    by_cases hp : p ∈ active
    · rw [if_pos hp] at hx; exact .inl hx
    · rw [if_neg hp] at hx
      rcases hfold p.dependencies (p :: active) x hx with hW | ⟨d, hd, q, hq, hr⟩
      · rcases List.mem_cons.mp hW with rfl | h
        · exact .inr Relation.ReflTransGen.refl
        · exact .inl h
      · exact .inr (Relation.ReflTransGen.head ⟨d, hd, hq⟩ hr)

/-- Under a rank function that strictly decreases along dependency edges,
a `markPlanActive` call whose fuel exceeds the marked plan's rank produces
a set closed under the dependency edges of every member it added. -/
theorem markPlanActive_closed (t : PlanTable) (rank : ExecutablePlan → Nat)
    (hrank : ∀ p q, some p ∈ t → depEdge t p q → rank q < rank p) :
    ∀ (fuel : Nat) (p : ExecutablePlan) (active : List ExecutablePlan),
      some p ∈ t → rank p < fuel →
      ∀ a ∈ markPlanActive t fuel p active, a ∉ active →
      ∀ b, depEdge t a b → b ∈ markPlanActive t fuel p active := by
  intro fuel
  induction fuel with
  | zero => intro p active hpt hplt; omega
  | succ fuel ih =>
    have hfold : ∀ (ds : List PlanId) (W : List ExecutablePlan),
        (∀ d ∈ ds, ∀ c, planAt t d = some c → some c ∈ t ∧ rank c < fuel) →
        ∀ a ∈ ds.foldl (fun acc d =>
          match planAt t d with
          | none => acc
          | some q => markPlanActive t fuel q acc) W,
        a ∉ W → ∀ b, depEdge t a b →
        b ∈ ds.foldl (fun acc d =>
          match planAt t d with
          | none => acc
          | some q => markPlanActive t fuel q acc) W := by
      intro ds
      induction ds with
      | nil => intro W _ a ha hna; exact absurd ha hna
      | cons d ds ihd =>
        intro W hds a ha hna b hb
        simp only [List.foldl_cons] at ha ⊢
        cases hpd : planAt t d with
        | none =>
          simp only [hpd] at ha ⊢
          exact ihd W (fun d2 hd2 => hds d2 (List.mem_cons_of_mem d hd2))
            a ha hna b hb
        | some c =>
          simp only [hpd] at ha ⊢
          obtain ⟨hct, hclt⟩ := hds d (List.mem_cons_self d ds) c hpd
          by_cases haW : a ∈ markPlanActive t fuel c W
          · exact markFold_mono t fuel ds (markPlanActive t fuel c W)
              (ih c W hct hclt a haW hna b hb)
          · exact ihd (markPlanActive t fuel c W)
              (fun d2 hd2 => hds d2 (List.mem_cons_of_mem d hd2)) a ha haW b hb
    intro p active hpt hplt a ha hna b hb
    simp only [markPlanActive] at ha ⊢
    by_cases hp : p ∈ active
    · rw [if_pos hp] at ha
      exact absurd ha hna
    · rw [if_neg hp] at ha ⊢
      by_cases hap : a = p
      · subst hap
        obtain ⟨d, hd, hpdb⟩ := hb
        have hblt : rank b < fuel := by
          have h1 : rank b < rank a := hrank a b hpt ⟨d, hd, hpdb⟩
          omega
        obtain ⟨f, rfl⟩ : ∃ f, fuel = f + 1 := ⟨fuel - 1, by omega⟩
        exact markFold_resolves t f a.dependencies (a :: active) d b hd hpdb
      · have hna2 : a ∉ p :: active := by
          intro hmem
          rcases List.mem_cons.mp hmem with h | h
          · exact hap h
          · exact hna h
        have hds : ∀ d ∈ p.dependencies, ∀ c, planAt t d = some c →
            some c ∈ t ∧ rank c < fuel := by
          intro d hd c hpc
          have h1 : rank c < rank p := hrank p c hpt ⟨d, hd, hpc⟩
          exact ⟨planAt_mem t d c hpc, by omega⟩
        exact hfold p.dependencies (p :: active) hds a ha hna2 b hb

/-- Membership survives the seed fold of `treeShakePlans`. -/
theorem shakeFold_mono (t : PlanTable) (seeds : List PlanId) :
    ∀ (W : List ExecutablePlan),
      W ⊆ seeds.foldl (fun acc sid =>
        match planAt t sid with
        | none => acc
        | some p => markPlanActive t t.length p acc) W := by
  induction seeds with
  | nil => intro W x hx; exact hx
  | cons s seeds ihs =>
    intro W x hx
    simp only [List.foldl_cons]
    apply ihs
    cases hps : planAt t s with
    | none => simp only [hps]; exact hx
    | some p => simp only [hps]; exact markPlanActive_mono t t.length p W hx

/-- Every seed id that resolves puts its plan in the folded active set. -/
theorem shakeFold_seed (t : PlanTable) (seeds : List PlanId) :
    ∀ (W : List ExecutablePlan) (s : PlanId) (q : ExecutablePlan),
      s ∈ seeds → planAt t s = some q →
      q ∈ seeds.foldl (fun acc sid =>
        match planAt t sid with
        | none => acc
        | some p => markPlanActive t t.length p acc) W := by
  induction seeds with
  | nil => intro W s q hs; exact absurd hs (List.not_mem_nil s)
  | cons s0 seeds ihs =>
    intro W s q hs hq
    simp only [List.foldl_cons]
    rcases List.mem_cons.mp hs with rfl | hs2
    · simp only [hq]
      have hlen : 0 < t.length :=
        List.length_pos.mpr (List.ne_nil_of_mem (planAt_mem t s q hq))
      obtain ⟨n, hn⟩ : ∃ n, t.length = n + 1 := ⟨t.length - 1, by omega⟩
      apply shakeFold_mono t seeds
      rw [hn]
      exact markPlanActive_self t n q W
    · cases hps : planAt t s0 with
      | none => simp only [hps]; exact ihs W s q hs2 hq
      | some p => simp only [hps]; exact ihs _ s q hs2 hq

/-- Everything in the folded active set is reachable from a resolved
seed. -/
theorem shakeFold_sound (t : PlanTable) (seeds : List PlanId) :
    ∀ (W : List ExecutablePlan) (x : ExecutablePlan),
      x ∈ seeds.foldl (fun acc sid =>
        match planAt t sid with
        | none => acc
        | some p => markPlanActive t t.length p acc) W →
      x ∈ W ∨ ReachableFromSeeds t seeds x := by
  induction seeds with
  | nil => intro W x hx; exact .inl hx
  | cons s seeds ihs =>
    intro W x hx
    simp only [List.foldl_cons] at hx
    rcases ihs _ x hx with hW | ⟨s2, hs2, q, hq, hr⟩
    · cases hps : planAt t s with
      | none => simp only [hps] at hW; exact .inl hW
      | some p =>
        simp only [hps] at hW
        rcases markPlanActive_sound t t.length p W x hW with h | h
        · exact .inl h
        · exact .inr ⟨s, List.mem_cons_self s seeds, p, hps, h⟩
    · exact .inr ⟨s2, List.mem_cons_of_mem s hs2, q, hq, hr⟩

/-- Under a decreasing rank bounded by the table length, the folded active
set is closed under dependency edges of the members it added. -/
theorem shakeFold_closed (t : PlanTable) (rank : ExecutablePlan → Nat)
    (hrank : ∀ p q, some p ∈ t → depEdge t p q → rank q < rank p)
    (hbound : ∀ p, some p ∈ t → rank p < t.length) (seeds : List PlanId) :
    ∀ (W : List ExecutablePlan),
      ∀ a ∈ seeds.foldl (fun acc sid =>
        match planAt t sid with
        | none => acc
        | some p => markPlanActive t t.length p acc) W,
      a ∉ W → ∀ b, depEdge t a b →
      b ∈ seeds.foldl (fun acc sid =>
        match planAt t sid with
        | none => acc
        | some p => markPlanActive t t.length p acc) W := by
  induction seeds with
  | nil => intro W a ha hna; exact absurd ha hna
  | cons s seeds ihs =>
    intro W a ha hna b hb
    simp only [List.foldl_cons] at ha ⊢
    cases hps : planAt t s with
    | none =>
      simp only [hps] at ha ⊢
      exact ihs W a ha hna b hb
    | some p =>
      simp only [hps] at ha ⊢
      have hpt : some p ∈ t := planAt_mem t s p hps
      by_cases haW : a ∈ markPlanActive t t.length p W
      · exact shakeFold_mono t seeds (markPlanActive t t.length p W)
          (markPlanActive_closed t rank hrank t.length p W hpt (hbound p hpt)
            a haW hna b hb)
      · exact ihs (markPlanActive t t.length p W) a ha haW b hb

/-- Completeness of the marking stage: every plan reachable from a
resolved seed ends up in the active set. -/
theorem shakeActivePlans_complete (t : PlanTable) (rank : ExecutablePlan → Nat)
    (hrank : ∀ p q, some p ∈ t → depEdge t p q → rank q < rank p)
    (hbound : ∀ p, some p ∈ t → rank p < t.length) (seeds : List PlanId)
    (p : ExecutablePlan) (hp : ReachableFromSeeds t seeds p) :
    p ∈ shakeActivePlans t seeds := by
  obtain ⟨s, hs, q, hq, hr⟩ := hp
  have hr2 : Relation.ReflTransGen (depEdge t) q p := hr
  clear hr
  unfold shakeActivePlans
  induction hr2 with
  | refl => exact shakeFold_seed t seeds [] s q hs hq
  | tail hr3 he ihr =>
    exact shakeFold_closed t rank hrank hbound seeds [] _ ihr
      (List.not_mem_nil _) _ he

/-- C2: after `treeShakePlans` runs, a plan remains in the plan table if
and only if it was there before and is reachable, by transitively following
dependency edges, from the seed set assembled from the subscription item
plan (if any), the item plans of all field paths, all recorded side-effect
plans and all list-transform dependency plans; every slot whose plan is not
so reachable is nulled.  The rank function witnesses the acyclicity of the
dependency graph that the source relies on for termination. -/
theorem treeShakePlans_keeps_exactly_reachable (t : PlanTable) (r : ShakeRoots)
    (rank : ExecutablePlan → Nat)
    (hrank : ∀ p q, some p ∈ t → depEdge t p q → rank q < rank p)
    (hbound : ∀ p, some p ∈ t → rank p < t.length) :
    ∀ (i : PlanId) (p : ExecutablePlan),
      planAt (treeShakePlans t r) i = some p ↔
        planAt t i = some p ∧ ReachableFromSeeds t (shakeSeeds r) p := by
  intro i p
  constructor
  · intro h
    unfold planAt at h
    simp only [treeShakePlans] at h
    rw [List.get?_map] at h
    cases hg : t.get? i with
    | none =>
      rw [hg] at h
      exact absurd (show (none : Option ExecutablePlan) = some p from h)
        (by simp)
    | some slot =>
      rw [hg] at h
      cases slot with
      | none =>
        exact absurd (show (none : Option ExecutablePlan) = some p from h)
          (by simp)
      | some q =>
        have h2 : (if q ∈ shakeActivePlans t (shakeSeeds r) then some q
            else none) = some p := h
        by_cases hq : q ∈ shakeActivePlans t (shakeSeeds r)
        · rw [if_pos hq] at h2
          injection h2 with h2
          subst h2
          refine ⟨?_, ?_⟩
          · unfold planAt
            rw [hg]
            rfl
          · rcases shakeFold_sound t (shakeSeeds r) [] q hq with h3 | h3
            · exact absurd h3 (List.not_mem_nil q)
            · exact h3
        · rw [if_neg hq] at h2
          exact absurd h2 (by simp)
  · rintro ⟨hp, hreach⟩
    have hq : p ∈ shakeActivePlans t (shakeSeeds r) :=
      shakeActivePlans_complete t rank hrank hbound (shakeSeeds r) p hreach
    have hg : t.get? i = some (some p) := by
      unfold planAt at hp
      cases hg2 : t.get? i with
      | none =>
        rw [hg2] at hp
        exact absurd (show (none : Option ExecutablePlan) = some p from hp)
          (by simp)
      | some slot =>
        rw [hg2] at hp
        cases slot with
        | none =>
          exact absurd (show (none : Option ExecutablePlan) = some p from hp)
            (by simp)
        | some q =>
          have h2 : some q = some p := hp
          injection h2 with h2
          rw [h2]
    unfold planAt
    simp only [treeShakePlans]
    rw [List.get?_map, hg]
    show (if p ∈ shakeActivePlans t (shakeSeeds r) then some p else none) =
      some p
    rw [if_pos hq]

/-- Witness for C2 at a three-plan table: the seed is the item plan `1`,
which depends on plan `0`; both survive shaking (plan `1` as a seed, plan
`0` as reachable through the dependency edge). -/
theorem treeShakePlans_witness :
    planAt (treeShakePlans exampleShakeTable exampleShakeRoots) 0 =
        some exampleShakePlanA ∧
    planAt (treeShakePlans exampleShakeTable exampleShakeRoots) 1 =
        some exampleShakePlanB := by
  have hrank : ∀ p q, some p ∈ exampleShakeTable →
      depEdge exampleShakeTable p q → q.pid < p.pid := by
    intro p q hp he
    obtain ⟨d, hd, hqd⟩ := he
    simp only [exampleShakeTable, List.mem_cons, List.not_mem_nil, or_false,
      Option.some.injEq] at hp
    rcases hp with rfl | rfl | rfl
    · exact absurd hd (List.not_mem_nil d)
    · have hd0 : d = 0 := by
        simpa only [exampleShakePlanB, List.mem_singleton] using hd
      subst hd0
      rw [show planAt exampleShakeTable 0 = some exampleShakePlanA from rfl]
        at hqd
      injection hqd with hqd
      subst hqd
      decide
    · exact absurd hd (List.not_mem_nil d)
  have hbound : ∀ p, some p ∈ exampleShakeTable →
      p.pid < exampleShakeTable.length := by
    intro p hp
    simp only [exampleShakeTable, List.mem_cons, List.not_mem_nil, or_false,
      Option.some.injEq] at hp
    rcases hp with rfl | rfl | rfl <;> decide
  constructor
  · exact (treeShakePlans_keeps_exactly_reachable exampleShakeTable
      exampleShakeRoots (fun p => p.pid) hrank hbound 0 exampleShakePlanA).mpr
      ⟨by rfl, ⟨1, by decide, exampleShakePlanB, by rfl,
        Relation.ReflTransGen.single ⟨0, by decide, by rfl⟩⟩⟩
  · exact (treeShakePlans_keeps_exactly_reachable exampleShakeTable
      exampleShakeRoots (fun p => p.pid) hrank hbound 1 exampleShakePlanB).mpr
      ⟨by rfl, ⟨1, by decide, exampleShakePlanB, by rfl,
        Relation.ReflTransGen.refl⟩⟩

end Crystal
